import Mathlib

/-!
Verification of the Planner block engine: a shallow embedding of the block
document model and its operations (src/js/core.js `DataManager`, the unnamed
block-system file `BlockManager` / `BlockMenu`, and the unnamed rich-text
file `Editor`), with theorems settling the frozen claims about URL
sanitization, block create/update/convert/delete/reorder, markdown
shortcuts, inline markdown transformation, and the slash-command menu.

Conventions of the embedding:
* JS strings are `String`; a JS value that may be a non-string or `null` /
  `undefined` is `Option String` (`none` = not a string).
* The persistent record store (IndexedDB, an external collaborator) is a
  `List Block`; keyed `put` / `delete` become conditional `map` / `filter`.
  Stores built by the app have pairwise distinct ids (IndexedDB keyPath),
  which theorems take as a hypothesis where they need it.
* `new Date().toISOString()` is an explicit `now : String` parameter.
* A rejected promise (e.g. `updateBlock` on a missing record) is the
  `Except.error` branch.
* The browser URL parser (`new URL`) is external to the repository; it is
  passed in abstractly as `parse : String → Option String` returning the
  protocol (scheme followed by a colon) of a successfully parsed URL, and
  `whatwgProtocol` below is a concrete model of it used for witnesses.
-/

namespace Planner

/-- JS `String.prototype.trim()`: strip leading and trailing whitespace
(modelled with Lean's `Char.isWhitespace`, which covers the ASCII
whitespace the repository's URLs can contain). -/
def jsTrim (s : String) : String :=
  String.mk (((s.data.dropWhile Char.isWhitespace).reverse.dropWhile Char.isWhitespace).reverse)

/-- JS `String.prototype.startsWith(p)`. -/
def jsStartsWith (s p : String) : Bool :=
  p.data.isPrefixOf s.data

/-- JS `String.prototype.toLowerCase()` on ASCII (schemes are ASCII). -/
def jsLower (s : String) : String :=
  String.mk (s.data.map Char.toLower)

/-- A block record, with exactly the persisted fields built by
`DataManager.createBlock` (core.js): `id`, `pageId`, `parentId`, `type`,
`content`, `properties`, `order`, `createdAt`, `updatedAt`.  `properties`
is a JS object of auxiliary attributes, modelled as an association list. -/
structure Block where
  id : String
  pageId : String
  parentId : Option String
  type : String
  content : String
  properties : List (String × String)
  order : Int
  createdAt : String
  updatedAt : String
deriving DecidableEq

/-- A partial update object `data` as passed to `updateBlock(id, data)`:
each field is `some v` when the key is present in the object.  (Callers in
the repository patch `type`, `content`, `order`, `properties` and
`parentId`; none of them patch `id` or the timestamps directly.) -/
structure BlockPatch where
  type : Option String := none
  content : Option String := none
  order : Option Int := none
  properties : Option (List (String × String)) := none
  parentId : Option (Option String) := none
deriving DecidableEq

/-- JS object spread `{ ...block, ...data }`: keys present in `data`
override the corresponding fields of `block`. -/
def applyPatch (b : Block) (p : BlockPatch) : Block :=
  { b with
    type := p.type.getD b.type
    content := p.content.getD b.content
    order := p.order.getD b.order
    properties := p.properties.getD b.properties
    parentId := p.parentId.getD b.parentId }

/-- `Modelled from the spec:` the browser's WHATWG URL parser (`new URL`,
an external collaborator, not part of this repository), reduced to the one
observation the code makes of it: the `protocol` of a successfully parsed
URL, i.e. its lowercased scheme followed by `:`.  A scheme is an ASCII
letter followed by letters, digits, `+`, `-` or `.`; parsing fails when no
scheme-and-colon prefix exists or nothing follows the colon.  The claim
theorems are stated for an arbitrary parser; this concrete model is used
to instantiate them on the spec's example URLs. -/
def whatwgProtocol (s : String) : Option String :=
  match s.data with
  | [] => none
  | c :: rest =>
    if c.isAlpha then
      let isSchemeChar : Char → Bool := fun d => d.isAlphanum || d == '+' || d == '-' || d == '.'
      let sch := c :: rest.takeWhile isSchemeChar
      match rest.dropWhile isSchemeChar with
      | ':' :: tail =>
        if tail.isEmpty then none
        else some (jsLower (String.mk (sch ++ [':'])))
      | _ => none
    else none

/-- JS `x || dflt` for a possibly-absent string: `undefined`, `null` and
`""` are falsy. -/
def jsOr (v : Option String) (dflt : String) : String :=
  match v with
  | none => dflt
  | some s => if s = "" then dflt else s

namespace DM

/-- `_get('blocks', id)` / `getBlock(id)`: lookup by key.  (IndexedDB keys
are unique; on stores the app builds, at most one record matches.) -/
def findBlock (store : List Block) (id : String) : Option Block :=
  store.find? (fun b => b.id == id)

/-- The argument object of `DataManager.createBlock(data)` (core.js
760-773); absent keys are `none`. -/
structure NewBlock where
  pageId : String
  parentId : Option String := none
  type : Option String := none
  content : Option String := none
  properties : Option (List (String × String)) := none
  order : Option Int := none

/-- `DataManager.createBlock(data)` (core.js 760-773): builds the record
with defaults (`parentId || null`, `type || 'paragraph'`,
`content || ''`, `properties || {}`, `order || 0`, fresh timestamps) and
`_add`s it; IndexedDB `add` rejects when the key already exists. -/
def createBlockE (store : List Block) (d : NewBlock) (newId now : String) :
    Except String (Block × List Block) :=
  let b : Block :=
    { id := newId
      pageId := d.pageId
      parentId := d.parentId
      type := jsOr d.type "paragraph"
      content := d.content.getD ""
      properties := d.properties.getD []
      order := d.order.getD 0
      createdAt := now
      updatedAt := now }
  if store.any (fun x => x.id == newId) then .error "ConstraintError"
  else .ok (b, store ++ [b])

/-- Insert a block into a list sorted ascending by `order`, keeping it
before later-arriving blocks of equal order (JS `Array.prototype.sort` is
stable). -/
def insertByOrder (b : Block) : List Block → List Block
  | [] => [b]
  | c :: cs => if b.order ≤ c.order then b :: c :: cs else c :: insertByOrder b cs

/-- Stable sort ascending by `order`, modelling
`blocks.sort((a, b) => a.order - b.order)`. -/
def sortByOrder : List Block → List Block
  | [] => []
  | b :: bs => insertByOrder b (sortByOrder bs)

/-- `DataManager.getBlocks(pageId)` (core.js 779-782): all records with
the given `pageId`, sorted ascending by `order`. -/
def getBlocks (store : List Block) (pageId : String) : List Block :=
  sortByOrder (store.filter (fun b => b.pageId == pageId))

/-- `DataManager.updateBlock(id, data)` (core.js 784-789): fetch the
record, throw `'Block not found'` when absent, otherwise merge the patch,
refresh `updatedAt` and `put` the merged record back. -/
def updateBlockE (store : List Block) (id : String) (p : BlockPatch) (now : String) :
    Except String (List Block) :=
  match findBlock store id with
  | none => .error "Block not found"
  | some b =>
    let upd := { applyPatch b p with updatedAt := now }
    .ok (store.map (fun x => if x.id == id then upd else x))

/-- `DataManager.deleteBlock(id)` (core.js 791-798), fuelled: fetch the
children (`parentId` index), recursively delete each child first, then
delete the record itself.  The JS recursion terminates exactly when the
parent chains below `id` are acyclic; the fuel (strictly more than any
chain length) makes that termination explicit. -/
def deleteBlockFuel : Nat → List Block → String → List Block
  | 0, store, _ => store
  | fuel + 1, store, id =>
    let children := store.filter (fun b => b.parentId == some id)
    let store' := children.foldl (fun s c => deleteBlockFuel fuel s c.id) store
    store'.filter (fun b => !(b.id == id))

/-- `DataManager.deleteBlock(id)` with enough fuel for any acyclic store:
a parent chain visits pairwise distinct blocks, so its length is at most
`store.length`. -/
def deleteBlock (store : List Block) (id : String) : List Block :=
  deleteBlockFuel (store.length + 1) store id

/-- The patch `{ order: i }` sent by `reorderBlocks`. -/
def orderPatch (i : Nat) : BlockPatch := { order := some (i : Int) }

/-- The indexed loop of `DataManager.reorderBlocks` (core.js 800-808):
for each position `i`, look the id up in the snapshot of the page's
blocks taken at entry; when found, `updateBlock(block.id, { order: i })`
against the live store; otherwise skip the index. -/
def reorderGo (snap : List Block) (now : String) :
    List String → Nat → List Block → Except String (List Block)
  | [], _, s => .ok s
  | oid :: rest, i, s =>
    match snap.find? (fun b => b.id == oid) with
    | some b =>
      match updateBlockE s b.id (orderPatch i) now with
      | .error e => .error e
      | .ok s' => reorderGo snap now rest (i + 1) s'
    | none => reorderGo snap now rest (i + 1) s

/-- `DataManager.reorderBlocks(pageId, orderedIds)` (core.js 800-808). -/
def reorderBlocks (store : List Block) (pageId : String) (orderedIds : List String)
    (now : String) : Except String (List Block) :=
  reorderGo (getBlocks store pageId) now orderedIds 0 store

end DM

/-- A parent chain inside `store` from the block whose id is the chain's
head down to the target id `t`: each listed block's `parentId` names the
id of the next block, and the last one's `parentId` is `t`.
`ChainL store t x l` says `l` is such a chain whose topmost block has id
`x`. -/
inductive ChainL (store : List Block) (t : String) : String → List Block → Prop where
  | base {b : Block} : b ∈ store → b.parentId = some t → ChainL store t b.id [b]
  | step {b : Block} {m : String} {l : List Block} :
      b ∈ store → b.parentId = some m → ChainL store t m l → ChainL store t b.id (b :: l)

/-- The id `x` names a transitive descendant of the block with id `t`:
`x`'s `parentId` chain leads to `t`. -/
def ChainsTo (store : List Block) (t x : String) : Prop :=
  ∃ l, ChainL store t x l

/-- Fuelled decision procedure for `ChainsTo`: walk the parent chain
upward from `x` looking for `t`. -/
def chainsToB : Nat → List Block → String → String → Bool
  | 0, _, _, _ => false
  | fuel + 1, store, x, t =>
    match store.find? (fun b => b.id == x) with
    | none => false
    | some b =>
      match b.parentId with
      | none => false
      | some p => p == t || chainsToB fuel store p t

/-- One block's parent link respects the rank `r` (a child ranks strictly
above its parent).  A store all of whose blocks satisfy this is an
acyclic forest — the well-formedness under which the recursive delete of
the JS code terminates. -/
def rankOkB (r : String → Nat) (b : Block) : Bool :=
  match b.parentId with
  | none => true
  | some p => decide (r p < r b.id)

/-- The mutable state a `BlockManager` instance sees: `this.blocks` (the
in-memory id-keyed map for the open page), the persistent block store
behind `this.app.data`, the text content of each block's rendered
`.block-content` element, and `this.app.state.get('currentPage')`. -/
structure BMState where
  mem : List Block
  store : List Block
  dom : List (String × String)
  currentPage : Option String
deriving DecidableEq

/-- `Map.prototype.set(b.id, b)`: replace the entry in place when the key
exists, append otherwise. -/
def setRec (l : List Block) (b : Block) : List Block :=
  if l.any (fun x => x.id == b.id) then l.map (fun x => if x.id == b.id then b else x)
  else l ++ [b]

/-- Set the rendered text of a block's content element. -/
def setDom (d : List (String × String)) (k v : String) : List (String × String) :=
  if d.any (fun kv => kv.1 == k) then d.map (fun kv => if kv.1 == k then (k, v) else kv)
  else d ++ [(k, v)]

/-- The rendered text of a block's content element, when the element
exists. -/
def domText (d : List (String × String)) (k : String) : Option String :=
  (d.find? (fun kv => kv.1 == k)).map (fun kv => kv.2)

namespace BlockManager

/-- `BlockManager.sanitizeUrl(url, allowDataUri = false)` (block-system
file, lines 21-40): returns `''` for non-strings and empty input; accepts
a trimmed `data:image/` URL in image-capable mode; otherwise parses the
trimmed string and accepts it only for the `http:`/`https:` protocols.
`parse` is the external URL parser (see `whatwgProtocol`). -/
def sanitizeUrl (parse : String → Option String) (url : Option String)
    (allowDataUri : Bool := false) : String :=
  match url with
  | none => ""
  | some u =>
    if u = "" then ""
    else
      let trimmed := jsTrim u
      if allowDataUri && jsStartsWith trimmed "data:image/" then trimmed
      else
        match parse trimmed with
        | some proto => if proto == "http:" || proto == "https:" then trimmed else ""
        | none => ""

/-- `BlockManager.createBlock(type, content, afterBlock, options)`
(block-system file, lines 205-252): `null` when no page is open;
otherwise `order` is the reference block's `order + 1` when a reference
block is given (`0` if its id is not in the map), else `this.blocks.size`;
the record is created through `DataManager.createBlock`, entered into the
in-memory map, rendered into the document, and returned. -/
def createBlock (st : BMState) (ty content : String) (afterBlock : Option String)
    (props : List (String × String)) (newId now : String) :
    Except String (Option (Block × BMState)) :=
  match st.currentPage with
  | none => .ok none
  | some pageId =>
    let order : Int :=
      match afterBlock with
      | some aid =>
        match st.mem.find? (fun b => b.id == aid) with
        | some a => a.order + 1
        | none => 0
      | none => (st.mem.length : Int)
    match DM.createBlockE st.store
        { pageId := pageId, type := some ty, content := some content,
          properties := some props, order := some order } newId now with
    | .error e => .error e
    | .ok (b, store') =>
      .ok (some (b, { st with mem := setRec st.mem b, store := store',
                              dom := setDom st.dom b.id b.content }))

/-- `BlockManager.updateBlock(id, data)` (block-system file, lines
530-538): a silent no-op when the id is not in the in-memory map;
otherwise the patch is spread over the in-memory record (no timestamp
touch there) and forwarded to `DataManager.updateBlock`, which merges it
into the persisted record and refreshes `updatedAt`.  The second
component reports a storage rejection (`await` rethrows it after the
in-memory write already happened). -/
def updateBlock (st : BMState) (id : String) (p : BlockPatch) (now : String) :
    BMState × Option String :=
  match st.mem.find? (fun b => b.id == id) with
  | none => (st, none)
  | some bd =>
    let st1 := { st with mem := setRec st.mem (applyPatch bd p) }
    match DM.updateBlockE st.store id p now with
    | .error e => (st1, some e)
    | .ok store' => ({ st1 with store := store' }, none)

/-- `BlockManager.convertBlock(id, newType)` (block-system file, lines
556-572): no-op when the id is missing from the map or the document;
otherwise replace `type` in the in-memory record, persist
`{ type: newType }`, and re-render the block element from the record
(whose text becomes the record's `content`). -/
def convertBlock (st : BMState) (id newType now : String) : BMState × Option String :=
  match st.mem.find? (fun b => b.id == id) with
  | none => (st, none)
  | some bd =>
    match domText st.dom id with
    | none => (st, none)
    | some _ =>
      let bd' := { bd with type := newType }
      let st1 := { st with mem := setRec st.mem bd' }
      match DM.updateBlockE st.store id { type := some newType } now with
      | .error e => (st1, some e)
      | .ok store' =>
        ({ st1 with store := store', dom := setDom st.dom id bd'.content }, none)

/-- The markdown block triggers (block-system file, lines 159-172), in
source order; matching is exact string equality. -/
def markdownShortcuts : List (String × String) :=
  [("#", "heading1"), ("##", "heading2"), ("###", "heading3"),
   ("-", "bulleted_list"), ("*", "bulleted_list"), ("1.", "numbered_list"),
   ("[]", "todo"), ("[ ]", "todo"), (">", "toggle"), ("\"", "quote"),
   ("---", "divider"), ("```", "code")]

/-- `BlockManager.checkMarkdownShortcut(e, block, blockData)`
(block-system file, lines 154-182), run on a space keydown: when the
block's rendered text equals a trigger, `preventDefault` (the returned
flag), call `convertBlock(id, type)` and set `content.textContent = ''`.
`convertBlock` is `async` and is not awaited: it runs synchronously only
up to its persistence `await` — writing the in-memory record, touching
no element text — and suspends; the clearing statement executes during
that suspension, and `convertBlock`'s re-render resolves afterwards in a
microtask, replacing the cleared element with one rendered from the
record (text = the record's `content`).  Since the suspended prefix and
the clear touch disjoint state, the final state equals clearing first
and then running `convertBlock` whole, which is how it is written
here. -/
def checkMarkdownShortcut (st : BMState) (id : String) (now : String) : BMState × Bool :=
  match domText st.dom id with
  | none => (st, false)
  | some text =>
    match markdownShortcuts.find? (fun pr => pr.1 == text) with
    | some pr =>
      ((convertBlock { st with dom := setDom st.dom id "" } id pr.2 now).1, true)
    | none => (st, false)

end BlockManager

namespace BlockMenu

/-- The keyboard/pointer state of the slash-command menu:
`closed | open(selectedIndex)`. -/
structure MenuState where
  isOpen : Bool
  selectedIndex : Int
deriving DecidableEq

/-- The events `BlockMenu.bindEvents` (block-system file, lines 664-711)
reacts to while deciding navigation and commit. -/
inductive MenuKey where
  | arrowDown
  | arrowUp
  | enter
  | escape
  | outsideClick
deriving DecidableEq

/-- `BlockMenu.show(block)` sets `isOpen = true` and `selectedIndex = 0`. -/
def showState : MenuState := { isOpen := true, selectedIndex := 0 }

/-- One step of the menu's event handling (block-system file, lines
664-711): ignored while closed; Escape and outside clicks `hide()`
without committing; ArrowDown moves to
`min(selectedIndex + 1, items.length - 1)`, ArrowUp to
`max(selectedIndex - 1, 0)`; Enter commits `items[selectedIndex]` (as its
index, `none` when that element is `undefined`) and `selectType` then
hides the menu. -/
def keydown (itemCount : Nat) (st : MenuState) (k : MenuKey) : MenuState × Option Int :=
  if !st.isOpen then (st, none)
  else
    match k with
    | .escape => ({ st with isOpen := false }, none)
    | .outsideClick => ({ st with isOpen := false }, none)
    | .arrowDown => ({ st with selectedIndex := min (st.selectedIndex + 1) ((itemCount : Int) - 1) }, none)
    | .arrowUp => ({ st with selectedIndex := max (st.selectedIndex - 1) 0 }, none)
    | .enter =>
      if 0 ≤ st.selectedIndex ∧ st.selectedIndex < (itemCount : Int) then
        ({ st with isOpen := false }, some st.selectedIndex)
      else (st, none)

/-- The menu state after opening the menu (`show`) and then processing a
sequence of key events. -/
def navState (itemCount : Nat) (ks : List MenuKey) : MenuState :=
  ks.foldl (fun s k => (keydown itemCount s k).1) showState

end BlockMenu

namespace Editor

/-- `Editor.sanitizeUrl(url)` (rich-text file, lines 270-283): identical to
the block layer's sanitizer but with no image-capable mode. -/
def sanitizeUrl (parse : String → Option String) (url : Option String) : String :=
  match url with
  | none => ""
  | some u =>
    if u = "" then ""
    else
      let trimmed := jsTrim u
      match parse trimmed with
      | some proto => if proto == "http:" || proto == "https:" then trimmed else ""
      | none => ""

/-- An inline element built and inserted by `checkInlineMarkdown`: either
the anchor of the link path (`href` already sanitized, `target="_blank"`,
`rel="noopener noreferrer"`) or a wrapper tag (`strong`/`em`/`s`/`code`)
holding the captured text. -/
inductive Inline where
  | anchor (href text target rel : String)
  | wrapped (tag content : String)
deriving DecidableEq

/-- The observable outcome of `Editor.checkInlineMarkdown(e)` (rich-text
file, lines 285-373) on one space keydown:
* `noMatch` — no trailing pattern matched; the handler falls through and
  the space is typed normally;
* `linkAborted` — the link pattern matched but its URL failed
  sanitization: the handler returns with the text node untouched — the
  matched markdown span is not deleted and no element is inserted
  (`preventDefault` already ran, so the space itself is consumed);
* `applied before node after` — the matched trailing span was removed
  (the text node now reads `before ++ after`), `node` was inserted
  between the two parts, and the cursor was placed immediately after it;
  the triggering space is not reinserted. -/
inductive MdResult where
  | noMatch
  | linkAborted
  | applied (before : String) (node : Inline) (after : String)
deriving DecidableEq

/-- The backquote character (code 96), the inline-code delimiter. -/
def backquoteChar : Char := Char.ofNat 96

/-- Matching of a trailing symmetric-delimiter pattern such as
`/\*\*([^*]+)\*\*$/` against the reversed text before the cursor: `k`
delimiter characters `c` at the end, then a nonempty run free of `c`
(the capture), then `k` more copies of `c`.  Returns the captured text
and the length of the whole match.  This is exactly the JS regex's
leftmost match: the capture class excludes `c`, so a match, when one
exists, is forced to this shape. -/
def matchDelimRev (k : Nat) (c : Char) (rl : List Char) : Option (String × Nat) :=
  if rl.take k = List.replicate k c then
    let rest := rl.drop k
    let mid := rest.takeWhile (fun d => d != c)
    let rest2 := rest.dropWhile (fun d => d != c)
    if mid ≠ [] ∧ rest2.take k = List.replicate k c then
      some (String.mk mid.reverse, k + mid.length + k)
    else none
  else none

/-- One attempt of `/\[([^\]]+)\]\(([^)]+)\)$/` anchored at the start of
`l` and required to consume it whole: `[`, a nonempty `]`-free capture,
`]`, `(`, a nonempty `)`-free capture, and a final `)` that ends the
string.  (The head of `dropWhile (· != ']')`, when it exists, is `]`, and
likewise for `)`, so those heads need no further test.) -/
def linkParseHead (l : List Char) : Option (String × String) :=
  match l with
  | [] => none
  | c :: rest =>
    let text := rest.takeWhile (fun d => d != ']')
    let rest2 := rest.dropWhile (fun d => d != ']')
    let rest3 := rest2.drop 2
    let url := rest3.takeWhile (fun d => d != ')')
    let rest4 := rest3.dropWhile (fun d => d != ')')
    if c = '[' ∧ text ≠ [] ∧ rest2.take 2 = [']', '('] ∧ url ≠ [] ∧ rest4 = [')'] then
      some (String.mk text, String.mk url)
    else none

/-- The anchored-at-end link regex over the text before the cursor: the
JS engine returns the match from the leftmost start position, and `$`
forces every match to extend to the end, so scan start positions left to
right.  Returns captured text, captured url and the match length. -/
def linkMatch : List Char → Option (String × String × Nat)
  | [] => none
  | c :: rest =>
    match linkParseHead (c :: rest) with
    | some (t, u) => some (t, u, rest.length + 1)
    | none => linkMatch rest

/-- `Editor.checkInlineMarkdown(e)` (rich-text file, lines 285-373): on a
space keydown, test the trailing patterns in source order against the
text before the cursor — `**…**`, `__…__` (bold), `*…*`, `_…_` (italic),
`~~…~~` (strikethrough), backquoted (code), `[text](url)` (link) — and
transform the first match.  For the link the URL is validated first and
the whole transformation aborts, leaving the typed markdown intact, when
sanitization rejects it. -/
def checkInlineMarkdown (parse : String → Option String) (text : String)
    (cursorPos : Nat) : MdResult :=
  let tb := text.data.take cursorPos
  let rl := tb.reverse
  let after := String.mk (text.data.drop cursorPos)
  match matchDelimRev 2 '*' rl with
  | some (mid, len) =>
    MdResult.applied (String.mk (text.data.take (cursorPos - len))) (Inline.wrapped "strong" mid) after
  | none =>
  match matchDelimRev 2 '_' rl with
  | some (mid, len) =>
    MdResult.applied (String.mk (text.data.take (cursorPos - len))) (Inline.wrapped "strong" mid) after
  | none =>
  match matchDelimRev 1 '*' rl with
  | some (mid, len) =>
    MdResult.applied (String.mk (text.data.take (cursorPos - len))) (Inline.wrapped "em" mid) after
  | none =>
  match matchDelimRev 1 '_' rl with
  | some (mid, len) =>
    MdResult.applied (String.mk (text.data.take (cursorPos - len))) (Inline.wrapped "em" mid) after
  | none =>
  match matchDelimRev 2 '~' rl with
  | some (mid, len) =>
    MdResult.applied (String.mk (text.data.take (cursorPos - len))) (Inline.wrapped "s" mid) after
  | none =>
  match matchDelimRev 1 backquoteChar rl with
  | some (mid, len) =>
    MdResult.applied (String.mk (text.data.take (cursorPos - len))) (Inline.wrapped "code" mid) after
  | none =>
  match linkMatch tb with
  | some (t, u, len) =>
    let sanitized := sanitizeUrl parse (some u)
    if sanitized = "" then MdResult.linkAborted
    else
      MdResult.applied (String.mk (text.data.take (cursorPos - len)))
        (Inline.anchor sanitized t "_blank" "noopener noreferrer") after
  | none => MdResult.noMatch

end Editor

/-- C1: for every input, `sanitizeUrl` returns the trimmed url exactly when
the trimmed string parses with scheme `http` or `https` (or, in
image-capable mode, starts with `data:image/`), and returns `""` for every
other input — including `javascript:` URLs, unparseable strings, the empty
string and non-strings; `Editor.sanitizeUrl` is the `allowDataUri = false`
instance of the same contract.  The final conjuncts check the spec's
examples against the concrete model of the browser parser. -/
theorem C1_sanitizeUrl_contract :
    (∀ (parse : String → Option String) (url : Option String) (allowDataUri : Bool),
      BlockManager.sanitizeUrl parse url allowDataUri =
        match url with
        | none => ""
        | some u =>
          if (allowDataUri && jsStartsWith (jsTrim u) "data:image/")
              || (match parse (jsTrim u) with
                  | some proto => proto == "http:" || proto == "https:"
                  | none => false)
          then jsTrim u else "")
    ∧ (∀ (parse : String → Option String) (url : Option String),
        Editor.sanitizeUrl parse url = BlockManager.sanitizeUrl parse url false)
    ∧ BlockManager.sanitizeUrl whatwgProtocol (some "javascript:alert(1)") false = ""
    ∧ BlockManager.sanitizeUrl whatwgProtocol (some "https://example.com") false = "https://example.com"
    ∧ BlockManager.sanitizeUrl whatwgProtocol (some "data:image/png;base64,AAAA") true = "data:image/png;base64,AAAA"
    ∧ BlockManager.sanitizeUrl whatwgProtocol (some "data:image/png;base64,AAAA") false = ""
    ∧ BlockManager.sanitizeUrl whatwgProtocol none true = ""
    ∧ BlockManager.sanitizeUrl whatwgProtocol (some "") true = ""
    ∧ BlockManager.sanitizeUrl whatwgProtocol (some "not a url") false = "" := by
  refine ⟨?_, ?_, by decide, by decide, by decide, by decide, rfl, rfl, by decide⟩
  · intro parse url allowDataUri
    cases url with
    | none => rfl
    | some u =>
      by_cases hu : u = ""
      · subst hu
        simp only [BlockManager.sanitizeUrl, if_pos rfl]
        have hsw : jsStartsWith (jsTrim "") "data:image/" = false := rfl
        have htrim : jsTrim "" = "" := rfl
        rw [hsw, htrim]
        cases hp : parse "" with
        | none => cases allowDataUri <;> simp [hp]
        | some proto =>
          cases allowDataUri <;>
            cases hpr : (proto == "http:" || proto == "https:") <;> simp [hp, hpr]
      · simp only [BlockManager.sanitizeUrl, if_neg hu]
        cases hd : (allowDataUri && jsStartsWith (jsTrim u) "data:image/") with
        | true => simp [hd]
        | false =>
          cases hp : parse (jsTrim u) with
          | none => simp [hd, hp]
          | some proto =>
            cases hpr : (proto == "http:" || proto == "https:") <;> simp [hd, hp, hpr]
  · intro parse url
    cases url with
    | none => rfl
    | some u =>
      by_cases hu : u = ""
      · subst hu; rfl
      · simp only [Editor.sanitizeUrl, BlockManager.sanitizeUrl, if_neg hu, Bool.false_and,
          Bool.false_eq_true, if_false]

/-! ### Generic lemmas about keyed record lists -/

theorem beq_id_eq {b : Block} {id : String} (h : (b.id == id) = true) : b.id = id := by
  simpa using h

theorem applyPatch_fixed (b : Block) (p : BlockPatch) :
    (applyPatch b p).id = b.id ∧ (applyPatch b p).pageId = b.pageId ∧
    (applyPatch b p).createdAt = b.createdAt ∧ (applyPatch b p).updatedAt = b.updatedAt :=
  ⟨rfl, rfl, rfl, rfl⟩

/-- Replacing the records whose id matches, then looking the id up, finds
the replacement exactly when some record matched. -/
theorem find?_replace (l : List Block) (id : String) (b : Block) (hb : (b.id == id) = true) :
    (l.map (fun x => if x.id == id then b else x)).find? (fun x => x.id == id)
      = if l.any (fun x => x.id == id) then some b else none := by
  induction l with
  | nil => rfl
  | cons x xs ih =>
    rw [List.map_cons, List.any_cons]
    by_cases h : (x.id == id) = true
    · rw [if_pos h, @List.find?_cons_of_pos _ (fun y => y.id == id) b _ hb, h,
        Bool.true_or, if_pos rfl]
    · have hf : (x.id == id) = false := by
        cases hx : (x.id == id) with
        | true => exact absurd hx h
        | false => rfl
      rw [if_neg h,
        @List.find?_cons_of_neg _ (fun y => y.id == id) x _ (by simpa using h),
        hf, Bool.false_or]
      exact ih

/-- A record of the replaced list with a different id was in the original
list. -/
theorem mem_replace_of_ne {l : List Block} {id : String} {b x : Block}
    (hb : b.id = id) (hx : x ∈ l.map (fun y => if y.id == id then b else y))
    (hne : x.id ≠ id) : x ∈ l := by
  rcases List.mem_map.mp hx with ⟨a, ha, hax⟩
  by_cases h : (a.id == id) = true
  · rw [if_pos h] at hax
    exact absurd (hax ▸ hb) hne
  · simp only [Bool.not_eq_true] at h
    rw [if_neg (by simp [h])] at hax
    exact hax ▸ ha

theorem setRec_of_found {l : List Block} {bd b : Block} {id : String}
    (hfind : l.find? (fun x => x.id == id) = some bd) (hb : b.id = id) :
    setRec l b = l.map (fun x => if x.id == id then b else x) := by
  have hmem := List.mem_of_find?_eq_some hfind
  have hpred := List.find?_some hfind
  have hany : l.any (fun x => x.id == b.id) = true :=
    List.any_eq_true.mpr ⟨bd, hmem, by rw [hb]; exact hpred⟩
  unfold setRec
  rw [if_pos hany, hb]

/-! ### C9: the slash-command menu's keyboard state machine -/

theorem menu_fold_invariant (n : Nat) (hn : 1 ≤ n) (ks : List BlockMenu.MenuKey)
    (hks : ∀ k ∈ ks, k = BlockMenu.MenuKey.arrowDown ∨ k = BlockMenu.MenuKey.arrowUp)
    (st0 : BlockMenu.MenuState) (h0 : st0.isOpen = true)
    (h1 : 0 ≤ st0.selectedIndex) (h2 : st0.selectedIndex ≤ (n : Int) - 1) :
    let st := ks.foldl (fun s k => (BlockMenu.keydown n s k).1) st0
    st.isOpen = true ∧ 0 ≤ st.selectedIndex ∧ st.selectedIndex ≤ (n : Int) - 1 := by
  induction ks generalizing st0 with
  | nil => exact ⟨h0, h1, h2⟩
  | cons k ks ih =>
    have hk := hks k (List.mem_cons_self k ks)
    have hrest : ∀ k' ∈ ks, k' = BlockMenu.MenuKey.arrowDown ∨ k' = BlockMenu.MenuKey.arrowUp :=
      fun k' hk' => hks k' (List.mem_cons_of_mem k hk')
    have hn' : (0 : Int) ≤ (n : Int) - 1 := by
      have : (1 : Int) ≤ (n : Int) := by exact_mod_cast hn
      omega
    rcases hk with hk | hk <;> subst hk
    · refine ih hrest _ ?_ ?_ ?_
      · simp [BlockMenu.keydown, h0]
      · simp only [BlockMenu.keydown, h0, Bool.not_true]
        simp only [Bool.false_eq_true, if_false]
        exact le_min (by omega) hn'
      · simp only [BlockMenu.keydown, h0, Bool.not_true]
        simp only [Bool.false_eq_true, if_false]
        exact min_le_right _ _
    · refine ih hrest _ ?_ ?_ ?_
      · simp [BlockMenu.keydown, h0]
      · simp only [BlockMenu.keydown, h0, Bool.not_true]
        simp only [Bool.false_eq_true, if_false]
        exact le_max_right _ _
      · simp only [BlockMenu.keydown, h0, Bool.not_true]
        simp only [Bool.false_eq_true, if_false]
        exact max_le (by omega) hn'

/-- C9: while the menu is open over `itemCount ≥ 1` items, any sequence of
ArrowUp/ArrowDown events keeps `selectedIndex` inside `[0, itemCount-1]`
(ArrowDown on the last item and ArrowUp on the first leave it unchanged);
Enter commits the item at `selectedIndex` and closes the menu; Escape or
an outside click closes it without committing anything. -/
theorem C9_blockMenu_navigation (itemCount : Nat) (hn : 1 ≤ itemCount)
    (ks : List BlockMenu.MenuKey)
    (hks : ∀ k ∈ ks, k = BlockMenu.MenuKey.arrowDown ∨ k = BlockMenu.MenuKey.arrowUp) :
    (BlockMenu.navState itemCount ks).isOpen = true
    ∧ 0 ≤ (BlockMenu.navState itemCount ks).selectedIndex
    ∧ (BlockMenu.navState itemCount ks).selectedIndex ≤ (itemCount : Int) - 1
    ∧ ((BlockMenu.navState itemCount ks).selectedIndex = (itemCount : Int) - 1 →
        (BlockMenu.keydown itemCount (BlockMenu.navState itemCount ks) .arrowDown).1.selectedIndex
          = (BlockMenu.navState itemCount ks).selectedIndex)
    ∧ ((BlockMenu.navState itemCount ks).selectedIndex = 0 →
        (BlockMenu.keydown itemCount (BlockMenu.navState itemCount ks) .arrowUp).1.selectedIndex
          = (BlockMenu.navState itemCount ks).selectedIndex)
    ∧ BlockMenu.keydown itemCount (BlockMenu.navState itemCount ks) .enter
        = ({ BlockMenu.navState itemCount ks with isOpen := false },
           some (BlockMenu.navState itemCount ks).selectedIndex)
    ∧ BlockMenu.keydown itemCount (BlockMenu.navState itemCount ks) .escape
        = ({ BlockMenu.navState itemCount ks with isOpen := false }, none)
    ∧ BlockMenu.keydown itemCount (BlockMenu.navState itemCount ks) .outsideClick
        = ({ BlockMenu.navState itemCount ks with isOpen := false }, none) := by
  have hstart0 : BlockMenu.showState.selectedIndex = 0 := rfl
  have hcast : (1 : Int) ≤ (itemCount : Int) := by exact_mod_cast hn
  obtain ⟨hopen, hlo, hhi⟩ :=
    menu_fold_invariant itemCount hn ks hks BlockMenu.showState rfl
      (by rw [hstart0]) (by rw [hstart0]; omega)
  have hopen' : (BlockMenu.navState itemCount ks).isOpen = true := hopen
  have hlo' : 0 ≤ (BlockMenu.navState itemCount ks).selectedIndex := hlo
  have hhi' : (BlockMenu.navState itemCount ks).selectedIndex ≤ (itemCount : Int) - 1 := hhi
  refine ⟨hopen', hlo', hhi', ?_, ?_, ?_, ?_, ?_⟩
  · intro htop
    have hmin : min ((BlockMenu.navState itemCount ks).selectedIndex + 1) ((itemCount : Int) - 1)
        = (BlockMenu.navState itemCount ks).selectedIndex := by
      rw [htop]; exact min_eq_right (by omega)
    simp [BlockMenu.keydown, hopen', hmin]
  · intro hbot
    have hmax : max ((BlockMenu.navState itemCount ks).selectedIndex - 1) 0
        = (BlockMenu.navState itemCount ks).selectedIndex := by
      rw [hbot]; exact max_eq_right (by omega)
    simp [BlockMenu.keydown, hopen', hmax]
  · have hlt : (BlockMenu.navState itemCount ks).selectedIndex < (itemCount : Int) := by omega
    simp [BlockMenu.keydown, hopen', hlo', hlt]
  · simp [BlockMenu.keydown, hopen']
  · simp [BlockMenu.keydown, hopen']

/-- Witness for C9 at `itemCount = 16` (the menu's sixteen block types)
and the key sequence ArrowUp, ArrowDown, ArrowDown. -/
theorem C9_blockMenu_navigation_witness :
    (1 ≤ 16 ∧ ∀ k ∈ [BlockMenu.MenuKey.arrowUp, BlockMenu.MenuKey.arrowDown,
        BlockMenu.MenuKey.arrowDown],
      k = BlockMenu.MenuKey.arrowDown ∨ k = BlockMenu.MenuKey.arrowUp)
    ∧ ((BlockMenu.navState 16 [BlockMenu.MenuKey.arrowUp, BlockMenu.MenuKey.arrowDown,
        BlockMenu.MenuKey.arrowDown]).isOpen = true
      ∧ 0 ≤ (BlockMenu.navState 16 [BlockMenu.MenuKey.arrowUp, BlockMenu.MenuKey.arrowDown,
        BlockMenu.MenuKey.arrowDown]).selectedIndex) := by
  refine ⟨⟨by decide, by decide⟩, ?_⟩
  obtain ⟨h1, h2, -⟩ := C9_blockMenu_navigation 16 (by decide)
    [BlockMenu.MenuKey.arrowUp, BlockMenu.MenuKey.arrowDown, BlockMenu.MenuKey.arrowDown]
    (by decide)
  exact ⟨h1, h2⟩

/-! ### C6: `updateBlock` on unknown and known ids -/

/-- C6: `updateBlock(id, patch)` with an id absent from the block
collection is a silent no-op — the state (in-memory map, persistent
store, document) is returned unchanged and no error is raised (the code
merely returns; it does not even log).  For a known id the patch is
spread over the in-memory record and over the persisted record, the
persisted copy's `updatedAt` is refreshed to the present call's
timestamp, and nothing else changes (same id sets, other records
untouched). -/
theorem C6_updateBlock_unknown_noop (st : BMState) (id : String) (p : BlockPatch)
    (now : String) :
    (st.mem.find? (fun b => b.id == id) = none →
      BlockManager.updateBlock st id p now = (st, none))
    ∧ (∀ bd sb, st.mem.find? (fun b => b.id == id) = some bd →
        DM.findBlock st.store id = some sb →
        ∃ st', BlockManager.updateBlock st id p now = (st', none)
          ∧ st'.mem.find? (fun b => b.id == id) = some (applyPatch bd p)
          ∧ DM.findBlock st'.store id = some { applyPatch sb p with updatedAt := now }
          ∧ st'.dom = st.dom ∧ st'.currentPage = st.currentPage
          ∧ st'.mem.length = st.mem.length ∧ st'.store.length = st.store.length
          ∧ (∀ x ∈ st'.mem, x.id ≠ id → x ∈ st.mem)
          ∧ (∀ x ∈ st'.store, x.id ≠ id → x ∈ st.store)) := by
  constructor
  · intro hnone
    unfold BlockManager.updateBlock
    rw [hnone]
  · intro bd sb hbd hsb
    have hbdpred : (bd.id == id) = true := by
      have h := List.find?_some hbd
      simpa using h
    have hsbpred : (sb.id == id) = true := by
      have h := List.find?_some hsb
      simpa using h
    have hbdid : bd.id = id := beq_id_eq hbdpred
    have hsbid : sb.id = id := beq_id_eq hsbpred
    have happ : (applyPatch bd p).id = id := by rw [(applyPatch_fixed bd p).1, hbdid]
    have hupd : ({ applyPatch sb p with updatedAt := now } : Block).id = id := by
      have : ({ applyPatch sb p with updatedAt := now } : Block).id = (applyPatch sb p).id := rfl
      rw [this, (applyPatch_fixed sb p).1, hsbid]
    refine ⟨⟨setRec st.mem (applyPatch bd p),
        st.store.map (fun x => if x.id == id then { applyPatch sb p with updatedAt := now } else x),
        st.dom, st.currentPage⟩, ?_, ?_, ?_, rfl, rfl, ?_, ?_, ?_, ?_⟩
    · unfold BlockManager.updateBlock
      rw [hbd]
      unfold DM.updateBlockE
      rw [show DM.findBlock st.store id = some sb from hsb]
    · rw [setRec_of_found hbd happ,
        find?_replace st.mem id (applyPatch bd p) (by rw [happ]; exact beq_self_eq_true id),
        if_pos (List.any_eq_true.mpr ⟨bd, List.mem_of_find?_eq_some hbd, hbdpred⟩)]
    · unfold DM.findBlock
      rw [find?_replace st.store id _ (by rw [hupd]; exact beq_self_eq_true id),
        if_pos (List.any_eq_true.mpr ⟨sb, List.mem_of_find?_eq_some hsb, hsbpred⟩)]
    · rw [setRec_of_found hbd happ, List.length_map]
    · rw [List.length_map]
    · intro x hx hne
      rw [setRec_of_found hbd happ] at hx
      exact mem_replace_of_ne happ hx hne
    · intro x hx hne
      exact mem_replace_of_ne hupd hx hne

/-- Witness for C6: a one-block state in which the unknown id `"zz"` is a
no-op and the known id `"b1"` is merged. -/
theorem C6_updateBlock_unknown_noop_witness :
    (([⟨"b1", "p1", none, "paragraph", "hi", [], 0, "t0", "t0"⟩] :
        List Block).find? (fun b => b.id == "zz") = none
      ∧ BlockManager.updateBlock
          ⟨[⟨"b1", "p1", none, "paragraph", "hi", [], 0, "t0", "t0"⟩],
           [⟨"b1", "p1", none, "paragraph", "hi", [], 0, "t0", "t0"⟩],
           [("b1", "hi")], some "p1"⟩ "zz" { content := some "x" } "t1"
        = (⟨[⟨"b1", "p1", none, "paragraph", "hi", [], 0, "t0", "t0"⟩],
            [⟨"b1", "p1", none, "paragraph", "hi", [], 0, "t0", "t0"⟩],
            [("b1", "hi")], some "p1"⟩, none)) := by
  refine ⟨by decide, ?_⟩
  exact (C6_updateBlock_unknown_noop
    ⟨[⟨"b1", "p1", none, "paragraph", "hi", [], 0, "t0", "t0"⟩],
     [⟨"b1", "p1", none, "paragraph", "hi", [], 0, "t0", "t0"⟩],
     [("b1", "hi")], some "p1"⟩ "zz" { content := some "x" } "t1").1 (by decide)

/-! ### C5: the `order` computed by `createBlock` -/

/-- C5: `createBlock` computes the new block's `order` as the size of the
open page's block collection when no reference block is given (which is
the sibling count: every block of the collection belongs to the open page,
and at top level they are all siblings of the new top-level block), and as
the reference block's `order + 1` when a reference block is given and
known; the new record is appended to persistent storage and returned. -/
theorem C5_createBlock_order (st : BMState) (ty content : String)
    (afterBlock : Option String) (props : List (String × String)) (newId now pid : String)
    (hpage : st.currentPage = some pid)
    (hfresh : st.store.all (fun b => !(b.id == newId)) = true) :
    ∃ b st', BlockManager.createBlock st ty content afterBlock props newId now
        = .ok (some (b, st'))
      ∧ st'.store = st.store ++ [b]
      ∧ b.order = (match afterBlock with
          | none => (st.mem.length : Int)
          | some aid =>
            match st.mem.find? (fun x => x.id == aid) with
            | some a => a.order + 1
            | none => 0)
      ∧ (afterBlock = none →
          (∀ x ∈ st.mem, x.pageId = pid ∧ x.parentId = none) →
          b.order = ((st.mem.filter
            (fun x => x.pageId == b.pageId && x.parentId == b.parentId)).length : Int))
      ∧ b.id = newId ∧ b.pageId = pid ∧ b.parentId = none := by
  have hany : st.store.any (fun x => x.id == newId) = false := by
    cases h : st.store.any (fun x => x.id == newId) with
    | false => rfl
    | true =>
      obtain ⟨x, hx, hpx⟩ := List.any_eq_true.mp h
      have := List.all_eq_true.mp hfresh x hx
      rw [hpx] at this
      exact absurd this (by decide)
  unfold BlockManager.createBlock
  rw [hpage]
  unfold DM.createBlockE
  rw [hany]
  simp only [Bool.false_eq_true, if_false]
  refine ⟨_, _, rfl, rfl, ?_, ?_, rfl, rfl, rfl⟩
  · cases afterBlock <;> rfl
  intro hnone hall
  subst hnone
  have hfilter : st.mem.filter
      (fun x => x.pageId == pid && x.parentId == (none : Option String)) = st.mem := by
    apply List.filter_eq_self.mpr
    intro x hx
    obtain ⟨h1, h2⟩ := hall x hx
    rw [h1, h2]
    simp
  show ((st.mem.length : Int))
      = ((st.mem.filter (fun x => x.pageId == pid && x.parentId == none)).length : Int)
  rw [hfilter]

/-- Witness for C5: creating a paragraph block on page `"p1"` after the
existing block `"b1"` of order `0`. -/
theorem C5_createBlock_order_witness :
    ((⟨[⟨"b1", "p1", none, "paragraph", "hi", [], 0, "t0", "t0"⟩],
        [⟨"b1", "p1", none, "paragraph", "hi", [], 0, "t0", "t0"⟩],
        [("b1", "hi")], some "p1"⟩ : BMState).currentPage = some "p1"
      ∧ ([⟨"b1", "p1", none, "paragraph", "hi", [], 0, "t0", "t0"⟩] :
          List Block).all (fun b => !(b.id == "b2")) = true)
    ∧ (∃ b st', BlockManager.createBlock
          ⟨[⟨"b1", "p1", none, "paragraph", "hi", [], 0, "t0", "t0"⟩],
           [⟨"b1", "p1", none, "paragraph", "hi", [], 0, "t0", "t0"⟩],
           [("b1", "hi")], some "p1"⟩ "paragraph" "" (some "b1") [] "b2" "t1"
          = .ok (some (b, st'))
        ∧ b.order = 1 ∧ b.id = "b2") := by
  refine ⟨⟨rfl, by decide⟩, ?_⟩
  obtain ⟨b, st', hrun, hstore, horder, hsib, hid, hpage, hparent⟩ :=
    C5_createBlock_order
      ⟨[⟨"b1", "p1", none, "paragraph", "hi", [], 0, "t0", "t0"⟩],
       [⟨"b1", "p1", none, "paragraph", "hi", [], 0, "t0", "t0"⟩],
       [("b1", "hi")], some "p1"⟩ "paragraph" "" (some "b1") [] "b2" "t1" "p1"
      rfl (by decide)
  refine ⟨b, st', hrun, ?_, hid⟩
  rw [horder]
  decide

/-! ### C3 / C7: `convertBlock` and the markdown block shortcuts -/

/-- `find?_replace` for the dom text pairs. -/
theorem find?_replace_pair (l : List (String × String)) (k v : String) :
    (l.map (fun kv => if kv.1 == k then (k, v) else kv)).find? (fun kv => kv.1 == k)
      = if l.any (fun kv => kv.1 == k) then some (k, v) else none := by
  induction l with
  | nil => rfl
  | cons x xs ih =>
    rw [List.map_cons, List.any_cons]
    by_cases h : (x.1 == k) = true
    · rw [if_pos h,
        @List.find?_cons_of_pos _ (fun kv => kv.1 == k) (k, v) _ (beq_self_eq_true k), h,
        Bool.true_or, if_pos rfl]
    · have hf : (x.1 == k) = false := by
        cases hx : (x.1 == k) with
        | true => exact absurd hx h
        | false => rfl
      rw [if_neg h,
        @List.find?_cons_of_neg _ (fun kv => kv.1 == k) x _ (by simpa using h),
        hf, Bool.false_or]
      exact ih

theorem find?_append_of_none {α : Type} {l₁ l₂ : List α} {p : α → Bool}
    (h : l₁.find? p = none) : (l₁ ++ l₂).find? p = l₂.find? p := by
  induction l₁ with
  | nil => rfl
  | cons a l ih =>
    cases hpa : p a with
    | true =>
      rw [@List.find?_cons_of_pos _ p a l hpa] at h
      exact absurd h (by simp)
    | false =>
      rw [@List.find?_cons_of_neg _ p a l (by simp [hpa])] at h
      rw [List.cons_append, @List.find?_cons_of_neg _ p a _ (by simp [hpa])]
      exact ih h

/-- After `setDom`, the dom text under the key is the value just set. -/
theorem domText_setDom (d : List (String × String)) (k v : String) :
    domText (setDom d k v) k = some v := by
  unfold setDom
  by_cases hany : d.any (fun kv => kv.1 == k) = true
  · rw [if_pos hany]
    unfold domText
    rw [find?_replace_pair, if_pos hany]
    rfl
  · rw [if_neg hany]
    unfold domText
    have hnone : d.find? (fun kv => kv.1 == k) = none := by
      rw [List.find?_eq_none]
      intro kv hkv hp
      exact hany (List.any_eq_true.mpr ⟨kv, hkv, hp⟩)
    rw [find?_append_of_none hnone,
      @List.find?_cons_of_pos _ (fun kv => kv.1 == k) (k, v) _ (beq_self_eq_true k)]
    rfl

/-- Replacing records in place does not change the id sequence. -/
theorem map_id_replace {l : List Block} {b : Block} {id : String} (hb : b.id = id) :
    (l.map (fun x => if x.id == id then b else x)).map Block.id = l.map Block.id := by
  rw [List.map_map]
  apply List.map_congr_left
  intro a ha
  by_cases h : (a.id == id) = true
  · have : a.id = id := beq_id_eq h
    simp [Function.comp, h, hb, this]
  · simp [Function.comp, h]

/-- One `convertBlock` call on a block present in the map, the store and
the document: the in-memory record keeps every field but `type`, the
persisted record keeps every field but `type` and `updatedAt`, and the
re-rendered element shows the record's `content`. -/
theorem convertBlock_step (st : BMState) (id ty now : String) (bd sb : Block) (txt : String)
    (hm : st.mem.find? (fun b => b.id == id) = some bd)
    (hs : DM.findBlock st.store id = some sb)
    (hd : domText st.dom id = some txt) :
    BlockManager.convertBlock st id ty now
      = ({ mem := setRec st.mem { bd with type := ty },
           store := st.store.map
             (fun x => if x.id == id then { sb with type := ty, updatedAt := now } else x),
           dom := setDom st.dom id ({ bd with type := ty } : Block).content,
           currentPage := st.currentPage }, none) := by
  unfold BlockManager.convertBlock
  simp only [hm, hd]
  unfold DM.updateBlockE
  simp only [hs]
  rfl

/-- C3 (amended): any sequence of `convertBlock` calls on an existing
block changes only its `type` (and the persisted copy's `updatedAt`):
`id`, `pageId`, `parentId`, `order`, `content`, `properties` and
`createdAt` are carried over unchanged throughout, in both the in-memory
and the persisted record, and the id sequences of the map and the store
never change.  (No `properties` reset takes place — see the
counterexample.) -/
theorem C3_convertBlock_frame (st : BMState) (id now : String) (tys : List String)
    (bd sb : Block) (txt : String)
    (hm : st.mem.find? (fun b => b.id == id) = some bd)
    (hs : DM.findBlock st.store id = some sb)
    (hd : domText st.dom id = some txt) :
    ((tys.foldl (fun s ty => (BlockManager.convertBlock s id ty now).1) st).mem.find?
        (fun b => b.id == id) = some { bd with type := tys.getLastD bd.type })
    ∧ (DM.findBlock
        (tys.foldl (fun s ty => (BlockManager.convertBlock s id ty now).1) st).store id
        = some { sb with type := tys.getLastD sb.type,
                         updatedAt := if tys.isEmpty then sb.updatedAt else now })
    ∧ ((tys.foldl (fun s ty => (BlockManager.convertBlock s id ty now).1) st).mem.map Block.id
        = st.mem.map Block.id)
    ∧ ((tys.foldl (fun s ty => (BlockManager.convertBlock s id ty now).1) st).store.map Block.id
        = st.store.map Block.id) := by
  induction tys generalizing st bd sb txt with
  | nil =>
    exact ⟨hm, hs, rfl, rfl⟩
  | cons ty tys ih =>
    have hbdid : bd.id = id := beq_id_eq (by have h := List.find?_some hm; simpa using h)
    have hsbid : sb.id = id := beq_id_eq (by have h := List.find?_some hs; simpa using h)
    have hbd' : ({ bd with type := ty } : Block).id = id := hbdid
    have hsb' : ({ sb with type := ty, updatedAt := now } : Block).id = id := hsbid
    have hstep := convertBlock_step st id ty now bd sb txt hm hs hd
    have hfold : (ty :: tys).foldl (fun s t => (BlockManager.convertBlock s id t now).1) st
        = tys.foldl (fun s t => (BlockManager.convertBlock s id t now).1)
            (BlockManager.convertBlock st id ty now).1 := rfl
    rw [hfold, hstep]
    set st1 : BMState :=
      { mem := setRec st.mem { bd with type := ty },
        store := st.store.map
          (fun x => if x.id == id then { sb with type := ty, updatedAt := now } else x),
        dom := setDom st.dom id ({ bd with type := ty } : Block).content,
        currentPage := st.currentPage } with hst1
    have hm1 : st1.mem.find? (fun b => b.id == id) = some { bd with type := ty } := by
      rw [hst1]
      show (setRec st.mem { bd with type := ty }).find? (fun b => b.id == id) = _
      rw [setRec_of_found hm hbd',
        find?_replace st.mem id _ (by rw [hbd']; exact beq_self_eq_true id),
        if_pos (List.any_eq_true.mpr
          ⟨bd, List.mem_of_find?_eq_some hm, by have h := List.find?_some hm; simpa using h⟩)]
    have hs1 : DM.findBlock st1.store id = some { sb with type := ty, updatedAt := now } := by
      rw [hst1]
      show DM.findBlock (st.store.map _) id = _
      unfold DM.findBlock
      rw [find?_replace st.store id _ (by rw [hsb']; exact beq_self_eq_true id),
        if_pos (List.any_eq_true.mpr
          ⟨sb, List.mem_of_find?_eq_some hs, by have h := List.find?_some hs; simpa using h⟩)]
    have hd1 : domText st1.dom id = some ({ bd with type := ty } : Block).content := by
      rw [hst1]
      exact domText_setDom st.dom id _
    obtain ⟨c1, c2, c3, c4⟩ := ih st1 { bd with type := ty } { sb with type := ty, updatedAt := now }
      _ hm1 hs1 hd1
    refine ⟨?_, ?_, ?_, ?_⟩
    · rw [c1]
      rw [List.getLastD_cons]
    · rw [c2]
      rw [List.getLastD_cons]
      cases tys <;> rfl
    · rw [c3, hst1]
      show (setRec st.mem { bd with type := ty }).map Block.id = st.mem.map Block.id
      rw [setRec_of_found hm hbd']
      exact map_id_replace hbd'
    · rw [c4, hst1]
      exact map_id_replace hsbid

/-- Witness for C3: converting the paragraph `"b1"` (content `"x"`,
properties `[("k","v")]`) to `heading2` and then `code` keeps `id`,
`pageId`, `order`, `content` and `properties`, ending with type `code`. -/
theorem C3_convertBlock_frame_witness :
    (([⟨"b1", "p1", none, "paragraph", "x", [("k", "v")], 0, "t0", "t0"⟩] :
        List Block).find? (fun b => b.id == "b1")
      = some ⟨"b1", "p1", none, "paragraph", "x", [("k", "v")], 0, "t0", "t0"⟩)
    ∧ (([("heading2" : String), "code"].foldl
          (fun s ty => (BlockManager.convertBlock s "b1" ty "t1").1)
          ⟨[⟨"b1", "p1", none, "paragraph", "x", [("k", "v")], 0, "t0", "t0"⟩],
           [⟨"b1", "p1", none, "paragraph", "x", [("k", "v")], 0, "t0", "t0"⟩],
           [("b1", "x")], some "p1"⟩).mem.find? (fun b => b.id == "b1")
        = some ⟨"b1", "p1", none, "code", "x", [("k", "v")], 0, "t0", "t0"⟩) := by
  refine ⟨by decide, ?_⟩
  have h := (C3_convertBlock_frame
    ⟨[⟨"b1", "p1", none, "paragraph", "x", [("k", "v")], 0, "t0", "t0"⟩],
     [⟨"b1", "p1", none, "paragraph", "x", [("k", "v")], 0, "t0", "t0"⟩],
     [("b1", "x")], some "p1"⟩ "b1" "t1" ["heading2", "code"]
    ⟨"b1", "p1", none, "paragraph", "x", [("k", "v")], 0, "t0", "t0"⟩
    ⟨"b1", "p1", none, "paragraph", "x", [("k", "v")], 0, "t0", "t0"⟩
    "x" (by decide) (by decide) (by decide)).1
  exact h

/-- C3 counterexample to the claim's "type-specific properties are reset
as appropriate for the new type": converting a `todo` block whose
`properties` hold the todo-specific `checked` flag into a `code` block
carries the `checked` property over verbatim — no reset of any kind
happens (the properties are not empty, not code-defaults; they are the
old todo properties). -/
theorem C3_convertBlock_properties_counterexample :
    (((BlockManager.convertBlock
        ⟨[⟨"b1", "p1", none, "todo", "task", [("checked", "true")], 0, "t0", "t0"⟩],
         [⟨"b1", "p1", none, "todo", "task", [("checked", "true")], 0, "t0", "t0"⟩],
         [("b1", "task")], some "p1"⟩ "b1" "code" "t1").1.mem.find?
        (fun b => b.id == "b1")).map Block.properties = some [("checked", "true")])
    ∧ some [("checked", "true")] ≠ some ([] : List (String × String)) := by
  exact ⟨by decide, by decide⟩

/-- C7 (amended): on a space keydown in a block whose rendered text is
exactly a recognized trigger, the handler consumes the event and
converts that same block in place to the trigger's type (same id; the
id sequences of the map and store are unchanged, so no block is
created); the rendered text ends equal to the block's saved in-memory
`content` — the handler's clear is overwritten by `convertBlock`'s
async re-render — so it ends cleared exactly when the saved `content`
is empty (the case of a trigger typed faster than the autosave
debounce); the trigger `"##"` maps to `heading2`. -/
theorem C7_markdownShortcut_converts (st : BMState) (id now txt : String)
    (pr : String × String) (bd sb : Block)
    (hm : st.mem.find? (fun b => b.id == id) = some bd)
    (hs : DM.findBlock st.store id = some sb)
    (hd : domText st.dom id = some txt)
    (htrig : BlockManager.markdownShortcuts.find? (fun q => q.1 == txt) = some pr) :
    ((BlockManager.checkMarkdownShortcut st id now).2 = true)
    ∧ ((BlockManager.checkMarkdownShortcut st id now).1.mem.find? (fun b => b.id == id)
        = some { bd with type := pr.2 })
    ∧ (DM.findBlock (BlockManager.checkMarkdownShortcut st id now).1.store id
        = some { sb with type := pr.2, updatedAt := now })
    ∧ (domText (BlockManager.checkMarkdownShortcut st id now).1.dom id = some bd.content)
    ∧ ((BlockManager.checkMarkdownShortcut st id now).1.mem.map Block.id
        = st.mem.map Block.id)
    ∧ ((BlockManager.checkMarkdownShortcut st id now).1.store.map Block.id
        = st.store.map Block.id)
    ∧ (txt = "##" → pr.2 = "heading2") := by
  have hbdid : bd.id = id := beq_id_eq (by have h := List.find?_some hm; simpa using h)
  have hsbid : sb.id = id := beq_id_eq (by have h := List.find?_some hs; simpa using h)
  have hstep := convertBlock_step { st with dom := setDom st.dom id "" } id pr.2 now bd sb ""
    hm hs (domText_setDom st.dom id "")
  have hrun : BlockManager.checkMarkdownShortcut st id now
      = ((BlockManager.convertBlock
            { st with dom := setDom st.dom id "" } id pr.2 now).1, true) := by
    unfold BlockManager.checkMarkdownShortcut
    simp only [hd, htrig]
  rw [hrun, hstep]
  have hbd' : ({ bd with type := pr.2 } : Block).id = id := hbdid
  have hsb' : ({ sb with type := pr.2, updatedAt := now } : Block).id = id := hsbid
  refine ⟨rfl, ?_, ?_, ?_, ?_, ?_, ?_⟩
  · show (setRec st.mem { bd with type := pr.2 }).find? (fun b => b.id == id) = _
    rw [setRec_of_found hm hbd',
      find?_replace st.mem id _ (by rw [hbd']; exact beq_self_eq_true id),
      if_pos (List.any_eq_true.mpr
        ⟨bd, List.mem_of_find?_eq_some hm, by have h := List.find?_some hm; simpa using h⟩)]
  · show DM.findBlock (st.store.map _) id = _
    unfold DM.findBlock
    rw [find?_replace st.store id _ (by rw [hsb']; exact beq_self_eq_true id),
      if_pos (List.any_eq_true.mpr
        ⟨sb, List.mem_of_find?_eq_some hs, by have h := List.find?_some hs; simpa using h⟩)]
  · exact domText_setDom _ id _
  · show (setRec st.mem { bd with type := pr.2 }).map Block.id = st.mem.map Block.id
    rw [setRec_of_found hm hbd']
    exact map_id_replace hbd'
  · exact map_id_replace hsbid
  · intro htxt
    subst htxt
    rw [show BlockManager.markdownShortcuts.find? (fun q => q.1 == "##")
        = some ("##", "heading2") from rfl] at htrig
    cases htrig
    rfl

/-- Witness for C7: a paragraph whose saved `content` is still empty and
whose rendered text is `"##"` is converted in place to `heading2`; with
the empty saved content the re-rendered text ends empty. -/
theorem C7_markdownShortcut_converts_witness :
    (([⟨"b1", "p1", none, "paragraph", "", [], 0, "t0", "t0"⟩] :
        List Block).find? (fun b => b.id == "b1")
      = some ⟨"b1", "p1", none, "paragraph", "", [], 0, "t0", "t0"⟩
     ∧ domText [("b1", "##")] "b1" = some "##")
    ∧ ((BlockManager.checkMarkdownShortcut
        ⟨[⟨"b1", "p1", none, "paragraph", "", [], 0, "t0", "t0"⟩],
         [⟨"b1", "p1", none, "paragraph", "", [], 0, "t0", "t0"⟩],
         [("b1", "##")], some "p1"⟩ "b1" "t1").2 = true
      ∧ (BlockManager.checkMarkdownShortcut
        ⟨[⟨"b1", "p1", none, "paragraph", "", [], 0, "t0", "t0"⟩],
         [⟨"b1", "p1", none, "paragraph", "", [], 0, "t0", "t0"⟩],
         [("b1", "##")], some "p1"⟩ "b1" "t1").1.mem.find? (fun b => b.id == "b1")
        = some ⟨"b1", "p1", none, "heading2", "", [], 0, "t0", "t0"⟩
      ∧ domText (BlockManager.checkMarkdownShortcut
        ⟨[⟨"b1", "p1", none, "paragraph", "", [], 0, "t0", "t0"⟩],
         [⟨"b1", "p1", none, "paragraph", "", [], 0, "t0", "t0"⟩],
         [("b1", "##")], some "p1"⟩ "b1" "t1").1.dom "b1" = some "") := by
  refine ⟨⟨by decide, by decide⟩, ?_⟩
  have h := C7_markdownShortcut_converts
    ⟨[⟨"b1", "p1", none, "paragraph", "", [], 0, "t0", "t0"⟩],
     [⟨"b1", "p1", none, "paragraph", "", [], 0, "t0", "t0"⟩],
     [("b1", "##")], some "p1"⟩ "b1" "t1" "##" ("##", "heading2")
    ⟨"b1", "p1", none, "paragraph", "", [], 0, "t0", "t0"⟩
    ⟨"b1", "p1", none, "paragraph", "", [], 0, "t0", "t0"⟩
    (by decide) (by decide) (by decide) (by decide)
  exact ⟨h.1, h.2.1, h.2.2.2.1⟩

/-- Counterexample for C7's original wording ("clears the trigger
text"): when the autosave debounce has already persisted the trigger as
the block's `content` (here `"##"` in both records) before the space is
pressed, the handler's clear is overwritten by `convertBlock`'s
re-render and the rendered text ends as `"##"`, not cleared. -/
theorem C7_markdownShortcut_clear_counterexample :
    domText (BlockManager.checkMarkdownShortcut
        ⟨[⟨"b1", "p1", none, "paragraph", "##", [], 0, "t0", "t0"⟩],
         [⟨"b1", "p1", none, "paragraph", "##", [], 0, "t0", "t0"⟩],
         [("b1", "##")], some "p1"⟩ "b1" "t1").1.dom "b1" = some "##"
    ∧ some "##" ≠ some "" := ⟨by decide, by decide⟩

/-! ### C4 / C10: `reorderBlocks` -/

theorem insertByOrder_perm (b : Block) (l : List Block) :
    (DM.insertByOrder b l).Perm (b :: l) := by
  induction l with
  | nil => exact List.Perm.refl _
  | cons c cs ih =>
    unfold DM.insertByOrder
    by_cases h : b.order ≤ c.order
    · rw [if_pos h]
    · rw [if_neg h]
      exact (ih.cons c).trans (List.Perm.swap b c cs)

theorem sortByOrder_perm (l : List Block) : (DM.sortByOrder l).Perm l := by
  induction l with
  | nil => exact List.Perm.refl _
  | cons b bs ih =>
    unfold DM.sortByOrder
    exact (insertByOrder_perm b (DM.sortByOrder bs)).trans (ih.cons b)

theorem mem_sortByOrder {a : Block} {l : List Block} :
    a ∈ DM.sortByOrder l ↔ a ∈ l :=
  (sortByOrder_perm l).mem_iff

/-- Membership and page of a block of the `getBlocks` snapshot. -/
theorem mem_getBlocks {store : List Block} {pageId : String} {b : Block} :
    b ∈ DM.getBlocks store pageId ↔ b ∈ store ∧ b.pageId = pageId := by
  unfold DM.getBlocks
  rw [mem_sortByOrder, List.mem_filter]
  constructor
  · rintro ⟨h1, h2⟩
    exact ⟨h1, by simpa using h2⟩
  · rintro ⟨h1, h2⟩
    exact ⟨h1, by simpa using h2⟩

/-- With pairwise distinct ids, two records of the store with the same id
are the same record. -/
theorem id_uniq {s : List Block} (hnd : (s.map Block.id).Nodup) {a b : Block}
    (ha : a ∈ s) (hb : b ∈ s) (hid : a.id = b.id) : a = b :=
  List.inj_on_of_nodup_map hnd ha hb hid

/-- With pairwise distinct ids, looking up a member's id finds exactly
that member. -/
theorem find?_of_mem_nodup {s : List Block} (hnd : (s.map Block.id).Nodup) {b : Block}
    (hb : b ∈ s) : s.find? (fun x => x.id == b.id) = some b := by
  induction s with
  | nil => exact absurd hb (List.not_mem_nil b)
  | cons a as ih =>
    rw [List.map_cons, List.nodup_cons] at hnd
    rcases List.mem_cons.mp hb with hba | hba
    · subst hba
      exact @List.find?_cons_of_pos _ (fun x => x.id == b.id) b as (beq_self_eq_true b.id)
    · have hane : (a.id == b.id) = false := by
        cases hx : (a.id == b.id) with
        | false => rfl
        | true =>
          exact absurd (List.mem_map.mpr ⟨b, hba, (beq_id_eq hx).symm⟩) hnd.1
      rw [@List.find?_cons_of_neg _ (fun x => x.id == b.id) a as (by simp [hane])]
      exact ih hnd.2 hba

/-- If some member carries the id, `find?` returns a record with that
id. -/
theorem find?_eq_some_of_exists {l : List Block} {x : String} (h : ∃ b ∈ l, b.id = x) :
    ∃ c, l.find? (fun b => b.id == x) = some c ∧ c.id = x := by
  cases hf : l.find? (fun b => b.id == x) with
  | some c => exact ⟨c, rfl, beq_id_eq (by have hh := List.find?_some hf; simpa using hh)⟩
  | none =>
    obtain ⟨b, hb, hbx⟩ := h
    have hnone := List.find?_eq_none.mp hf b hb
    rw [hbx] at hnone
    simp at hnone

/-- In-place replacement of the record with one id does not change the
lookup of any other id. -/
theorem find?_replace_ne (l : List Block) {id x : String} (u : Block) (hu : u.id = id)
    (hxne : x ≠ id) :
    (l.map (fun y => if y.id == id then u else y)).find? (fun b => b.id == x)
      = l.find? (fun b => b.id == x) := by
  induction l with
  | nil => rfl
  | cons a as ih =>
    rw [List.map_cons]
    by_cases h : (a.id == id) = true
    · have haid : a.id = id := beq_id_eq h
      have hax : ¬((a.id == x) = true) := by
        intro hc
        exact hxne ((beq_id_eq hc).symm.trans haid)
      have hux : ¬((u.id == x) = true) := by
        intro hc
        exact hxne ((beq_id_eq hc).symm.trans hu)
      rw [if_pos h, @List.find?_cons_of_neg _ (fun b => b.id == x) u _ hux,
        @List.find?_cons_of_neg _ (fun b => b.id == x) a as hax]
      exact ih
    · rw [if_neg h]
      by_cases hax : (a.id == x) = true
      · rw [@List.find?_cons_of_pos _ (fun b => b.id == x) a _ hax,
          @List.find?_cons_of_pos _ (fun b => b.id == x) a as hax]
      · rw [@List.find?_cons_of_neg _ (fun b => b.id == x) a _ hax,
          @List.find?_cons_of_neg _ (fun b => b.id == x) a as hax]
        exact ih

theorem updateBlockE_ok {s : List Block} {id : String} {b : Block} (p : BlockPatch)
    (now : String) (h : DM.findBlock s id = some b) :
    DM.updateBlockE s id p now
      = .ok (s.map (fun x => if x.id == id then
          { applyPatch b p with updatedAt := now } else x)) := by
  unfold DM.updateBlockE
  rw [h]

theorem reorderGo_cons (snap : List Block) (now oid : String) (rest : List String)
    (i : Nat) (s : List Block) :
    DM.reorderGo snap now (oid :: rest) i s
      = match snap.find? (fun b => b.id == oid) with
        | some b =>
          match DM.updateBlockE s b.id (DM.orderPatch i) now with
          | .error e => .error e
          | .ok s1 => DM.reorderGo snap now rest (i + 1) s1
        | none => DM.reorderGo snap now rest (i + 1) s := rfl

/-- The complete behaviour of `reorderBlocks`' loop: it always succeeds;
it preserves the id sequence of the store; a lookup of any id that is
either unknown to the snapshot or not listed is unchanged; and, for
pairwise distinct listed ids, the id listed at position `j` that the
snapshot does know ends with its stored record patched to
`order := i + j` and a fresh `updatedAt`. -/
theorem reorderGo_master (snap : List Block) (now : String) (rest : List String) :
    ∀ (i : Nat) (s : List Block), (∀ b ∈ snap, b.id ∈ s.map Block.id) →
    ∃ s', DM.reorderGo snap now rest i s = .ok s'
      ∧ s'.map Block.id = s.map Block.id
      ∧ (∀ x : String, (snap.find? (fun y => y.id == x) = none ∨ x ∉ rest) →
          s'.find? (fun y => y.id == x) = s.find? (fun y => y.id == x))
      ∧ (rest.Nodup → ∀ (j : Nat) (hj : j < rest.length) (c : Block),
          (∃ b, snap.find? (fun y => y.id == rest.get ⟨j, hj⟩) = some b) →
          s.find? (fun y => y.id == rest.get ⟨j, hj⟩) = some c →
          s'.find? (fun y => y.id == rest.get ⟨j, hj⟩)
            = some { applyPatch c (DM.orderPatch (i + j)) with updatedAt := now }) := by
  induction rest with
  | nil =>
    intro i s hlive
    exact ⟨s, rfl, rfl, fun x hx => rfl, fun _ j hj => absurd hj (Nat.not_lt_zero j)⟩
  | cons oid rest ih =>
    intro i s hlive
    cases hsnap : snap.find? (fun y => y.id == oid) with
    | none =>
      obtain ⟨s', hok, hids, hframe, hwrites⟩ := ih (i + 1) s hlive
      have hstepeq : DM.reorderGo snap now (oid :: rest) i s
          = DM.reorderGo snap now rest (i + 1) s := by
        rw [reorderGo_cons, hsnap]
      refine ⟨s', by rw [hstepeq]; exact hok, hids, ?_, ?_⟩
      · intro x hx
        refine hframe x ?_
        rcases hx with hx | hx
        · exact Or.inl hx
        · exact Or.inr (fun hm => hx (List.mem_cons_of_mem _ hm))
      · intro hnd j hj c hex hsfind
        cases j with
        | zero =>
          obtain ⟨b, hb⟩ := hex
          rw [show (oid :: rest).get ⟨0, hj⟩ = oid from rfl, hsnap] at hb
          cases hb
        | succ j' =>
          have hj' : j' < rest.length := Nat.lt_of_succ_lt_succ hj
          have hget : (oid :: rest).get ⟨j' + 1, hj⟩ = rest.get ⟨j', hj'⟩ := rfl
          rw [hget] at hex hsfind ⊢
          have harith : i + 1 + j' = i + (j' + 1) := by omega
          rw [← harith]
          exact hwrites (List.nodup_cons.mp hnd).2 j' hj' c hex hsfind
    | some b =>
      have hbid : b.id = oid := beq_id_eq (by have h := List.find?_some hsnap; simpa using h)
      have hbmem : b ∈ snap := List.mem_of_find?_eq_some hsnap
      obtain ⟨c1, hc1mem, hc1id⟩ := List.mem_map.mp (hlive b hbmem)
      obtain ⟨c1', hc1find, hc1id'⟩ := find?_eq_some_of_exists ⟨c1, hc1mem, hc1id⟩
      have hupd := updateBlockE_ok (DM.orderPatch i) now
        (show DM.findBlock s b.id = some c1' from hc1find)
      have huid : ({ applyPatch c1' (DM.orderPatch i) with updatedAt := now } : Block).id
          = b.id := by
        show (applyPatch c1' (DM.orderPatch i)).id = b.id
        rw [(applyPatch_fixed c1' (DM.orderPatch i)).1, hc1id']
      have hids1 : (s.map (fun x => if x.id == b.id then
          { applyPatch c1' (DM.orderPatch i) with updatedAt := now } else x)).map Block.id
          = s.map Block.id := map_id_replace huid
      have hlive1 : ∀ bb ∈ snap, bb.id ∈ (s.map (fun x => if x.id == b.id then
          { applyPatch c1' (DM.orderPatch i) with updatedAt := now } else x)).map Block.id := by
        rw [hids1]; exact hlive
      obtain ⟨s', hok, hids, hframe, hwrites⟩ := ih (i + 1) _ hlive1
      have hstepeq : DM.reorderGo snap now (oid :: rest) i s
          = DM.reorderGo snap now rest (i + 1) (s.map (fun x => if x.id == b.id then
              { applyPatch c1' (DM.orderPatch i) with updatedAt := now } else x)) := by
        rw [reorderGo_cons]
        simp only [hsnap, hupd]
      have hfind1 : (s.map (fun x => if x.id == b.id then
          { applyPatch c1' (DM.orderPatch i) with updatedAt := now } else x)).find?
            (fun y => y.id == b.id)
          = some { applyPatch c1' (DM.orderPatch i) with updatedAt := now } := by
        rw [find?_replace s b.id _ (by rw [huid]; exact beq_self_eq_true b.id),
          if_pos (List.any_eq_true.mpr ⟨c1', List.mem_of_find?_eq_some hc1find,
            by have h := List.find?_some hc1find; simpa using h⟩)]
      refine ⟨s', by rw [hstepeq]; exact hok, by rw [hids, hids1], ?_, ?_⟩
      · intro x hx
        have hxo : x ≠ oid := by
          intro he
          subst he
          rcases hx with hx | hx
          · rw [hsnap] at hx
            cases hx
          · exact hx (List.mem_cons_self x rest)
        have hx' : snap.find? (fun y => y.id == x) = none ∨ x ∉ rest := by
          rcases hx with hx | hx
          · exact Or.inl hx
          · exact Or.inr (fun hm => hx (List.mem_cons_of_mem _ hm))
        rw [hframe x hx',
          find?_replace_ne s _ huid (fun he => hxo (he.trans hbid))]
      · intro hnd j hj c hex hsfind
        have hnd1 : oid ∉ rest := (List.nodup_cons.mp hnd).1
        have hnd2 : rest.Nodup := (List.nodup_cons.mp hnd).2
        cases j with
        | zero =>
          rw [show (oid :: rest).get ⟨0, hj⟩ = oid from rfl] at hsfind ⊢
          have hceq : c = c1' := by
            rw [hbid] at hc1find
            rw [hsfind] at hc1find
            exact Option.some.inj hc1find
          have hfound : (s.map (fun x => if x.id == b.id then
              { applyPatch c1' (DM.orderPatch i) with updatedAt := now } else x)).find?
                (fun y => y.id == oid)
              = some { applyPatch c1' (DM.orderPatch i) with updatedAt := now } := by
            rw [← hbid]
            exact hfind1
          rw [hframe oid (Or.inr hnd1), hfound, hceq, Nat.add_zero]
        | succ j' =>
          have hj' : j' < rest.length := Nat.lt_of_succ_lt_succ hj
          have hget : (oid :: rest).get ⟨j' + 1, hj⟩ = rest.get ⟨j', hj'⟩ := rfl
          rw [hget] at hex hsfind ⊢
          have hxo : rest.get ⟨j', hj'⟩ ≠ oid := by
            intro he
            exact hnd1 (he ▸ List.get_mem rest j' hj')
          have hsfind1 : (s.map (fun x => if x.id == b.id then
              { applyPatch c1' (DM.orderPatch i) with updatedAt := now } else x)).find?
                (fun y => y.id == rest.get ⟨j', hj'⟩)
              = some c := by
            rw [find?_replace_ne s _ huid (fun he => hxo (he.trans hbid))]
            exact hsfind
          have harith : i + 1 + j' = i + (j' + 1) := by omega
          rw [← harith]
          exact hwrites hnd2 j' hj' c hex hsfind1

/-- C4: when `orderedIds` is a full permutation of the page's current
block ids (and ids are unique, as the keyed store guarantees),
`reorderBlocks` succeeds and afterwards the id listed at position `j`
names a stored page block whose `order` is exactly `j`; conversely every
stored block of the page sits at exactly one listed index, `order` values
are unique within the page, and the sequence of ids maps 1:1 onto
`0..n-1`.  The id sequence of the store is unchanged, and each listed
block's updated record (including its refreshed `updatedAt`) is in the
persistent store `s'`. -/
theorem C4_reorderBlocks_full_permutation (store : List Block) (pageId : String)
    (orderedIds : List String) (now : String)
    (hnd : (store.map Block.id).Nodup)
    (hperm : orderedIds.Perm ((DM.getBlocks store pageId).map Block.id)) :
    ∃ s', DM.reorderBlocks store pageId orderedIds now = .ok s'
      ∧ (∀ (j : Nat) (hj : j < orderedIds.length), ∃ b, b ∈ s'
          ∧ b.id = orderedIds.get ⟨j, hj⟩ ∧ b.order = (j : Int) ∧ b.pageId = pageId)
      ∧ (∀ b ∈ s', b.pageId = pageId →
          ∃ (j : Nat) (hj : j < orderedIds.length),
            b.id = orderedIds.get ⟨j, hj⟩ ∧ b.order = (j : Int))
      ∧ (∀ b1 ∈ s', ∀ b2 ∈ s', b1.pageId = pageId → b2.pageId = pageId →
          b1.order = b2.order → b1 = b2)
      ∧ s'.map Block.id = store.map Block.id := by
  have hfilternd : ((store.filter (fun b => b.pageId == pageId)).map Block.id).Nodup :=
    hnd.sublist ((List.filter_sublist store).map Block.id)
  have hsnapnd : ((DM.getBlocks store pageId).map Block.id).Nodup :=
    (((sortByOrder_perm (store.filter (fun b => b.pageId == pageId))).map
      Block.id).nodup_iff).mpr hfilternd
  have hoidnd : orderedIds.Nodup := hperm.nodup_iff.mpr hsnapnd
  have hlive : ∀ b ∈ DM.getBlocks store pageId, b.id ∈ store.map Block.id := by
    intro b hb
    exact List.mem_map.mpr ⟨b, (mem_getBlocks.mp hb).1, rfl⟩
  obtain ⟨s', hok, hids, hframe, hwrites⟩ :=
    reorderGo_master (DM.getBlocks store pageId) now orderedIds 0 store hlive
  have hnd' : (s'.map Block.id).Nodup := by rw [hids]; exact hnd
  have hlisted : ∀ (j : Nat) (hj : j < orderedIds.length), ∃ bs : Block,
      bs.pageId = pageId
      ∧ s'.find? (fun y => y.id == orderedIds.get ⟨j, hj⟩)
          = some { applyPatch bs (DM.orderPatch j) with updatedAt := now }
      ∧ bs.id = orderedIds.get ⟨j, hj⟩ := by
    intro j hj
    have hxin : orderedIds.get ⟨j, hj⟩ ∈ orderedIds := List.get_mem _ _ _
    have hxsnap : orderedIds.get ⟨j, hj⟩ ∈ (DM.getBlocks store pageId).map Block.id :=
      hperm.mem_iff.mp hxin
    obtain ⟨bs, hbsmem, hbsid⟩ := List.mem_map.mp hxsnap
    have hsnapfind : (DM.getBlocks store pageId).find?
        (fun y => y.id == orderedIds.get ⟨j, hj⟩) = some bs := by
      have h := find?_of_mem_nodup hsnapnd hbsmem
      rw [hbsid] at h
      exact h
    have hbstore : bs ∈ store := (mem_getBlocks.mp hbsmem).1
    have hbpage : bs.pageId = pageId := (mem_getBlocks.mp hbsmem).2
    have hstorefind : store.find? (fun y => y.id == orderedIds.get ⟨j, hj⟩) = some bs := by
      have h := find?_of_mem_nodup hnd hbstore
      rw [hbsid] at h
      exact h
    have hw := hwrites hoidnd j hj bs ⟨bs, hsnapfind⟩ hstorefind
    rw [Nat.zero_add] at hw
    exact ⟨bs, hbpage, hw, hbsid⟩
  have hkey : ∀ b ∈ s', b.pageId = pageId →
      ∃ (j : Nat) (hj : j < orderedIds.length),
        b.id = orderedIds.get ⟨j, hj⟩ ∧ b.order = (j : Int) := by
    intro b hb hpage
    by_cases hmem : b.id ∈ orderedIds
    · obtain ⟨⟨j, hj⟩, hget⟩ := List.get_of_mem hmem
      obtain ⟨bs, hp, hw, hid⟩ := hlisted j hj
      have hself : s'.find? (fun y => y.id == b.id) = some b := find?_of_mem_nodup hnd' hb
      rw [← hget] at hself
      have hbeq : b = { applyPatch bs (DM.orderPatch j) with updatedAt := now } :=
        Option.some.inj (hself.symm.trans hw)
      refine ⟨j, hj, hget.symm, ?_⟩
      rw [hbeq]
      rfl
    · exfalso
      have hfr := hframe b.id (Or.inr hmem)
      have hself : s'.find? (fun y => y.id == b.id) = some b := find?_of_mem_nodup hnd' hb
      rw [hfr] at hself
      have hbstore : b ∈ store := List.mem_of_find?_eq_some hself
      have hbsnap : b ∈ DM.getBlocks store pageId := mem_getBlocks.mpr ⟨hbstore, hpage⟩
      exact hmem (hperm.mem_iff.mpr (List.mem_map.mpr ⟨b, hbsnap, rfl⟩))
  refine ⟨s', hok, ?_, hkey, ?_, hids⟩
  · intro j hj
    obtain ⟨bs, hp, hw, hid⟩ := hlisted j hj
    refine ⟨{ applyPatch bs (DM.orderPatch j) with updatedAt := now },
      List.mem_of_find?_eq_some hw, ?_, rfl, ?_⟩
    · show (applyPatch bs (DM.orderPatch j)).id = _
      rw [(applyPatch_fixed bs (DM.orderPatch j)).1]
      exact hid
    · show (applyPatch bs (DM.orderPatch j)).pageId = _
      rw [(applyPatch_fixed bs (DM.orderPatch j)).2.1]
      exact hp
  · intro b1 hb1 b2 hb2 hp1 hp2 hord
    obtain ⟨j1, hj1, hid1, ho1⟩ := hkey b1 hb1 hp1
    obtain ⟨j2, hj2, hid2, ho2⟩ := hkey b2 hb2 hp2
    have hj12 : j1 = j2 := by
      rw [ho1, ho2] at hord
      exact_mod_cast hord
    subst hj12
    exact id_uniq hnd' hb1 hb2 (hid1.trans hid2.symm)

/-- Witness for C4: the two-block page `p1` reordered by the permutation
`["b2", "b1"]`. -/
theorem C4_reorderBlocks_full_permutation_witness :
    ((([⟨"b1", "p1", none, "paragraph", "x", [], 0, "t0", "t0"⟩,
        ⟨"b2", "p1", none, "paragraph", "y", [], 1, "t0", "t0"⟩] :
        List Block).map Block.id).Nodup
      ∧ (["b2", "b1"] : List String).Perm
          ((DM.getBlocks
            [⟨"b1", "p1", none, "paragraph", "x", [], 0, "t0", "t0"⟩,
             ⟨"b2", "p1", none, "paragraph", "y", [], 1, "t0", "t0"⟩] "p1").map Block.id))
    ∧ (∃ s', DM.reorderBlocks
          [⟨"b1", "p1", none, "paragraph", "x", [], 0, "t0", "t0"⟩,
           ⟨"b2", "p1", none, "paragraph", "y", [], 1, "t0", "t0"⟩] "p1" ["b2", "b1"] "t1"
          = .ok s'
        ∧ s'.map Block.id = ["b1", "b2"]) := by
  refine ⟨⟨by decide, by decide⟩, ?_⟩
  obtain ⟨s', hok, -, -, -, hids⟩ :=
    C4_reorderBlocks_full_permutation
      [⟨"b1", "p1", none, "paragraph", "x", [], 0, "t0", "t0"⟩,
       ⟨"b2", "p1", none, "paragraph", "y", [], 1, "t0", "t0"⟩] "p1" ["b2", "b1"] "t1"
      (by decide) (by decide)
  exact ⟨s', hok, by rw [hids]; rfl⟩

/-- C10: `reorderBlocks` with a mismatched id set never throws: the loop
always finishes in the `ok` branch, the id sequence of the store is
unchanged, the lookup of every id unknown to the page's snapshot is
untouched (its index is simply unused), and every stored block whose id
was omitted from `orderedIds` keeps its exact previous record — in
particular its previous `order`. -/
theorem C10_reorderBlocks_mismatched_ids (store : List Block) (pageId : String)
    (orderedIds : List String) (now : String)
    (hnd : (store.map Block.id).Nodup) :
    ∃ s', DM.reorderBlocks store pageId orderedIds now = .ok s'
      ∧ s'.map Block.id = store.map Block.id
      ∧ (∀ x : String,
          (DM.getBlocks store pageId).find? (fun y => y.id == x) = none →
          s'.find? (fun y => y.id == x) = store.find? (fun y => y.id == x))
      ∧ (∀ b ∈ store, b.id ∉ orderedIds →
          b ∈ s' ∧ s'.find? (fun y => y.id == b.id) = some b) := by
  have hlive : ∀ b ∈ DM.getBlocks store pageId, b.id ∈ store.map Block.id := by
    intro b hb
    exact List.mem_map.mpr ⟨b, (mem_getBlocks.mp hb).1, rfl⟩
  obtain ⟨s', hok, hids, hframe, -⟩ :=
    reorderGo_master (DM.getBlocks store pageId) now orderedIds 0 store hlive
  refine ⟨s', hok, hids, ?_, ?_⟩
  · intro x hx
    exact hframe x (Or.inl hx)
  · intro b hb hmem
    have hfr := hframe b.id (Or.inr hmem)
    have hself : store.find? (fun y => y.id == b.id) = some b := find?_of_mem_nodup hnd hb
    rw [hself] at hfr
    exact ⟨List.mem_of_find?_eq_some hfr, hfr⟩

/-- Witness for C10: `orderedIds = ["zz", "b2"]` against a page holding
only `"b1"`, `"b2"`: the unknown id `"zz"` is skipped and the omitted
block `"b1"` keeps its record. -/
theorem C10_reorderBlocks_mismatched_ids_witness :
    (([⟨"b1", "p1", none, "paragraph", "x", [], 0, "t0", "t0"⟩,
       ⟨"b2", "p1", none, "paragraph", "y", [], 1, "t0", "t0"⟩] :
       List Block).map Block.id).Nodup
    ∧ (∃ s', DM.reorderBlocks
          [⟨"b1", "p1", none, "paragraph", "x", [], 0, "t0", "t0"⟩,
           ⟨"b2", "p1", none, "paragraph", "y", [], 1, "t0", "t0"⟩] "p1" ["zz", "b2"] "t1"
          = .ok s'
        ∧ (⟨"b1", "p1", none, "paragraph", "x", [], 0, "t0", "t0"⟩ : Block) ∈ s') := by
  refine ⟨by decide, ?_⟩
  obtain ⟨s', hok, -, -, homit⟩ :=
    C10_reorderBlocks_mismatched_ids
      [⟨"b1", "p1", none, "paragraph", "x", [], 0, "t0", "t0"⟩,
       ⟨"b2", "p1", none, "paragraph", "y", [], 1, "t0", "t0"⟩] "p1" ["zz", "b2"] "t1"
      (by decide)
  refine ⟨s', hok, ?_⟩
  exact (homit ⟨"b1", "p1", none, "paragraph", "x", [], 0, "t0", "t0"⟩
    (by decide) (by decide)).1

/-! ### C8: the trailing `[text](url)` pattern of `checkInlineMarkdown` -/

theorem linkParseHead_ends {l : List Char} {t u : String}
    (h : Editor.linkParseHead l = some (t, u)) : ∃ l', l = l' ++ [')'] := by
  cases l with
  | nil => exact Option.noConfusion h
  | cons c rest =>
    simp only [Editor.linkParseHead] at h
    split at h
    · next hcond =>
      obtain ⟨hc, ht, h2, hu, h4⟩ := hcond
      refine ⟨c :: (rest.takeWhile (fun d => d != ']') ++ [']', '('] ++
        ((rest.dropWhile (fun d => d != ']')).drop 2).takeWhile (fun d => d != ')')), ?_⟩
      have e1 : rest.takeWhile (fun d => d != ']') ++ rest.dropWhile (fun d => d != ']')
          = rest := List.takeWhile_append_dropWhile (fun d => d != ']') rest
      have e2 : (rest.dropWhile (fun d => d != ']')).take 2
            ++ (rest.dropWhile (fun d => d != ']')).drop 2
          = rest.dropWhile (fun d => d != ']') := List.take_append_drop _ _
      have e3 : ((rest.dropWhile (fun d => d != ']')).drop 2).takeWhile (fun d => d != ')')
            ++ ((rest.dropWhile (fun d => d != ']')).drop 2).dropWhile (fun d => d != ')')
          = (rest.dropWhile (fun d => d != ']')).drop 2 :=
        List.takeWhile_append_dropWhile (fun d => d != ')') _
      rw [h2] at e2
      rw [h4] at e3
      conv_lhs => rw [← e1, ← e2, ← e3]
      simp
    · next => exact Option.noConfusion h

theorem linkMatch_ends {l : List Char} {t u : String} {len : Nat}
    (h : Editor.linkMatch l = some (t, u, len)) : ∃ l', l = l' ++ [')'] := by
  induction l with
  | nil => exact Option.noConfusion h
  | cons c rest ih =>
    cases hp : Editor.linkParseHead (c :: rest) with
    | some tu =>
      obtain ⟨t', u'⟩ := tu
      exact linkParseHead_ends hp
    | none =>
      have hstep : Editor.linkMatch (c :: rest) = Editor.linkMatch rest := by
        rw [show Editor.linkMatch (c :: rest)
            = (match Editor.linkParseHead (c :: rest) with
               | some (t, u) => some (t, u, rest.length + 1)
               | none => Editor.linkMatch rest) from rfl, hp]
      obtain ⟨l2, hl2⟩ := ih (by rw [← hstep]; exact h)
      exact ⟨c :: l2, by rw [hl2]; rfl⟩

theorem matchDelimRev_ne_head (k : Nat) (c d : Char) (l : List Char) (hk : k ≠ 0)
    (hd : d ≠ c) : Editor.matchDelimRev k c (d :: l) = none := by
  have hne : ¬((d :: l).take k = List.replicate k c) := by
    cases k with
    | zero => exact absurd rfl hk
    | succ k' =>
      rw [List.take_succ_cons, List.replicate_succ]
      intro he
      injection he with h1 h2
      exact hd h1
  unfold Editor.matchDelimRev
  rw [if_neg hne]

/-- C8: whenever the text before the cursor ends in a `[text](url)`
pattern (so the link regex matches — and the delimiter patterns, whose
last character cannot be `)`, all fail), `checkInlineMarkdown` validates
the captured url first: if sanitization rejects it the whole
transformation aborts with the typed markdown intact (`linkAborted`: no
span deleted, no element inserted); if it accepts, the matched span is
replaced by an anchor carrying the sanitized `href` and safe
`target`/`rel` attributes, the cursor ends immediately after it, and the
triggering space is consumed. -/
theorem C8_inline_link (parse : String → Option String) (text : String) (cursorPos : Nat)
    (t u : String) (len : Nat)
    (hlink : Editor.linkMatch (text.data.take cursorPos) = some (t, u, len)) :
    Editor.checkInlineMarkdown parse text cursorPos
      = if Editor.sanitizeUrl parse (some u) = "" then Editor.MdResult.linkAborted
        else
          Editor.MdResult.applied (String.mk (text.data.take (cursorPos - len)))
            (Editor.Inline.anchor (Editor.sanitizeUrl parse (some u)) t "_blank"
              "noopener noreferrer")
            (String.mk (text.data.drop cursorPos)) := by
  obtain ⟨l', hl'⟩ := linkMatch_ends hlink
  have hrev : (text.data.take cursorPos).reverse = ')' :: l'.reverse := by
    rw [hl']
    simp
  have h1 := matchDelimRev_ne_head 2 '*' ')' l'.reverse (by decide) (by decide)
  have h2 := matchDelimRev_ne_head 2 '_' ')' l'.reverse (by decide) (by decide)
  have h3 := matchDelimRev_ne_head 1 '*' ')' l'.reverse (by decide) (by decide)
  have h4 := matchDelimRev_ne_head 1 '_' ')' l'.reverse (by decide) (by decide)
  have h5 := matchDelimRev_ne_head 2 '~' ')' l'.reverse (by decide) (by decide)
  have h6 := matchDelimRev_ne_head 1 Editor.backquoteChar ')' l'.reverse (by decide) (by decide)
  unfold Editor.checkInlineMarkdown
  simp only [hrev, h1, h2, h3, h4, h5, h6, hlink]

/-- Witness for C8 at the concrete model of the browser parser: a
`javascript:` link aborts (text intact), an `https:` link becomes an
anchor with the cursor after it. -/
theorem C8_inline_link_witness :
    (Editor.linkMatch ("[x](javascript:foo)".data.take 19)
        = some ("x", "javascript:foo", 19)
      ∧ Editor.linkMatch ("[x](https://a.bc)".data.take 17)
        = some ("x", "https://a.bc", 17))
    ∧ Editor.checkInlineMarkdown whatwgProtocol "[x](javascript:foo)" 19
        = Editor.MdResult.linkAborted
    ∧ Editor.checkInlineMarkdown whatwgProtocol "[x](https://a.bc)" 17
        = Editor.MdResult.applied ""
            (Editor.Inline.anchor "https://a.bc" "x" "_blank" "noopener noreferrer") "" := by
  refine ⟨⟨by decide, by decide⟩, ?_, ?_⟩
  · rw [C8_inline_link whatwgProtocol "[x](javascript:foo)" 19 "x" "javascript:foo" 19
      (by decide)]
    decide
  · rw [C8_inline_link whatwgProtocol "[x](https://a.bc)" 17 "x" "https://a.bc" 17
      (by decide)]
    decide

/-! ### C2: transitive `deleteBlock` — chain lemmas -/

theorem chainL_mem {s : List Block} {t x : String} {l : List Block}
    (h : ChainL s t x l) : ∀ b ∈ l, b ∈ s := by
  induction h with
  | base hb hp =>
    intro c hc
    rw [List.mem_singleton] at hc
    exact hc ▸ ‹_ ∈ s›
  | step hb hp hch ih =>
    intro c hc
    rcases List.mem_cons.mp hc with hc | hc
    · exact hc ▸ hb
    · exact ih c hc

theorem chainL_ne_nil {s : List Block} {t x : String} {l : List Block}
    (h : ChainL s t x l) : l ≠ [] := by
  cases h with
  | base hb hp => exact List.cons_ne_nil _ _
  | step hb hp hch => exact List.cons_ne_nil _ _

theorem chainL_mono {s s2 : List Block} {t x : String} {l : List Block}
    (hsub : ∀ b ∈ s, b ∈ s2) (h : ChainL s t x l) : ChainL s2 t x l := by
  induction h with
  | base hb hp => exact ChainL.base (hsub _ hb) hp
  | step hb hp hch ih => exact ChainL.step (hsub _ hb) hp ih

theorem chainsTo_mono {s s2 : List Block} {t x : String}
    (hsub : ∀ b ∈ s, b ∈ s2) (h : ChainsTo s t x) : ChainsTo s2 t x := by
  obtain ⟨l, hl⟩ := h
  exact ⟨l, chainL_mono hsub hl⟩

/-- Concatenating chains: a chain from `x` down to `m` followed by a
chain from `m` down to `t`. -/
theorem chainL_concat {s : List Block} {m x t : String} {l1 l2 : List Block}
    (h1 : ChainL s m x l1) (h2 : ChainL s t m l2) : ChainL s t x (l1 ++ l2) := by
  induction h1 with
  | base hb hp => exact ChainL.step hb hp h2
  | step hb hp hch ih => exact ChainL.step hb hp ih

theorem chainsTo_compose {s : List Block} {m x t : String}
    (h1 : ChainsTo s m x) (h2 : ChainsTo s t m) : ChainsTo s t x := by
  obtain ⟨l1, hl1⟩ := h1
  obtain ⟨l2, hl2⟩ := h2
  exact ⟨l1 ++ l2, chainL_concat hl1 hl2⟩

/-- Extending a chain at the bottom through a block `cb` whose parent is
`t`. -/
theorem chainL_append_child {s : List Block} {x t : String} {l : List Block} {cb : Block}
    (h : ChainL s cb.id x l) (hcb : cb ∈ s) (hp : cb.parentId = some t) :
    ChainL s t x (l ++ [cb]) :=
  chainL_concat h (ChainL.base hcb hp)

/-- Ranks strictly increase from the target up along a chain. -/
theorem chainL_rank_lt {s : List Block} {t x : String} {l : List Block}
    (r : String → Nat) (hr : ∀ b ∈ s, rankOkB r b = true) (h : ChainL s t x l) :
    r t < r x := by
  induction h with
  | base hb hp =>
    have := hr _ hb
    unfold rankOkB at this
    rw [hp] at this
    exact of_decide_eq_true this
  | step hb hp hch ih =>
    have := hr _ hb
    unfold rankOkB at this
    rw [hp] at this
    exact ih.trans (of_decide_eq_true this)

theorem no_self_chain {s : List Block} {t : String} (r : String → Nat)
    (hr : ∀ b ∈ s, rankOkB r b = true) : ¬ ChainsTo s t t := by
  rintro ⟨l, hl⟩
  exact absurd (chainL_rank_lt r hr hl) (lt_irrefl _)

/-- Every block of a chain ranks at most as high as the chain's head. -/
theorem chainL_rank_ub {s : List Block} {t x : String} {l : List Block}
    (r : String → Nat) (hr : ∀ b ∈ s, rankOkB r b = true) (h : ChainL s t x l) :
    ∀ c ∈ l, r c.id ≤ r x := by
  induction h with
  | base hb hp =>
    intro c hc
    rw [List.mem_singleton] at hc
    exact le_of_eq (by rw [hc])
  | step hb hp hch ih =>
    intro c hc
    rcases List.mem_cons.mp hc with hc | hc
    · exact le_of_eq (by rw [hc])
    · have hml := hr _ hb
      unfold rankOkB at hml
      rw [hp] at hml
      exact (ih c hc).trans (le_of_lt (of_decide_eq_true hml))

/-- Under the rank discipline a chain never revisits an id. -/
theorem chainL_nodup {s : List Block} {t x : String} {l : List Block}
    (r : String → Nat) (hr : ∀ b ∈ s, rankOkB r b = true) (h : ChainL s t x l) :
    (l.map Block.id).Nodup := by
  induction h with
  | base hb hp => exact List.nodup_singleton _
  | step hb hp hch ih =>
    rw [List.map_cons, List.nodup_cons]
    refine ⟨?_, ih⟩
    intro hmem
    obtain ⟨c, hc, hcid⟩ := List.mem_map.mp hmem
    have hub := chainL_rank_ub r hr hch c hc
    have hlt := hr _ hb
    unfold rankOkB at hlt
    rw [hp] at hlt
    rw [hcid] at hub
    exact absurd (lt_of_le_of_lt hub (of_decide_eq_true hlt)) (lt_irrefl _)

/-- A chain's length is bounded by the store's size: its blocks are
pairwise distinct members of the store. -/
theorem chainL_length_le {s : List Block} {t x : String} {l : List Block}
    (r : String → Nat) (hr : ∀ b ∈ s, rankOkB r b = true) (h : ChainL s t x l) :
    l.length ≤ s.length := by
  have hnd := chainL_nodup r hr h
  have hsub : l.map Block.id ⊆ s.map Block.id := by
    intro a ha
    obtain ⟨c, hc, hcid⟩ := List.mem_map.mp ha
    exact List.mem_map.mpr ⟨c, chainL_mem h c hc, hcid⟩
  have hsp := (hnd.subperm hsub).length_le
  rw [List.length_map, List.length_map] at hsp
  exact hsp

theorem chainsToB_sound : ∀ (fuel : Nat) (s : List Block) (x t : String),
    chainsToB fuel s x t = true → ChainsTo s t x := by
  intro fuel
  induction fuel with
  | zero =>
    intro s x t h
    exact absurd h (by simp [chainsToB])
  | succ f ih =>
    intro s x t h
    simp only [chainsToB] at h
    cases hf : s.find? (fun b => b.id == x) with
    | none =>
      simp only [hf] at h
      exact absurd h (by simp)
    | some b =>
      simp only [hf] at h
      have hbid : b.id = x := beq_id_eq (by have hh := List.find?_some hf; simpa using hh)
      have hbmem := List.mem_of_find?_eq_some hf
      cases hp : b.parentId with
      | none =>
        simp only [hp] at h
        exact absurd h (by simp)
      | some m =>
        simp only [hp] at h
        simp only [Bool.or_eq_true] at h
        rcases h with h | h
        · have hmt : m = t := by simpa using h
          subst hmt
          exact ⟨[b], hbid ▸ ChainL.base hbmem hp⟩
        · obtain ⟨l, hl⟩ := ih s m t h
          exact ⟨b :: l, hbid ▸ ChainL.step hbmem hp hl⟩

theorem chainsToB_complete {s : List Block} (hnd : (s.map Block.id).Nodup) :
    ∀ {t x : String} {l : List Block}, ChainL s t x l →
    ∀ fuel, l.length ≤ fuel → chainsToB fuel s x t = true := by
  intro t x l h
  induction h with
  | base hb hp =>
    intro fuel hfuel
    cases fuel with
    | zero => simp at hfuel
    | succ f =>
      have hfind := find?_of_mem_nodup hnd hb
      simp only [chainsToB, hfind, hp]
      simp
  | step hb hp hch ih =>
    intro fuel hfuel
    cases fuel with
    | zero => simp at hfuel
    | succ f =>
      have hfind := find?_of_mem_nodup hnd hb
      have hih := ih f (by simp only [List.length_cons] at hfuel; omega)
      simp only [chainsToB, hfind, hp, hih]
      simp

theorem chainsToB_correct {s : List Block} (r : String → Nat)
    (hnd : (s.map Block.id).Nodup) (hr : ∀ b ∈ s, rankOkB r b = true)
    {t x : String} :
    chainsToB s.length s x t = true ↔ ChainsTo s t x := by
  constructor
  · exact chainsToB_sound s.length s x t
  · rintro ⟨l, hl⟩
    exact chainsToB_complete hnd hl s.length (chainL_length_le r hr hl)

theorem bool_eq_of_true_iff {a b : Bool} (h : (a = true) ↔ (b = true)) : a = b := by
  cases a with
  | true => exact (h.mp rfl).symm
  | false =>
    cases b with
    | false => rfl
    | true => exact absurd (h.mpr rfl) (by simp)

theorem length_filter_split {α : Type} (l : List α) (p : α → Bool) :
    (l.filter p).length + (l.filter (fun a => !(p a))).length = l.length := by
  induction l with
  | nil => rfl
  | cons a as ihl =>
    cases hpa : p a with
    | true =>
      have hna : ¬((fun x => !(p x)) a = true) := by simp [hpa]
      rw [@List.filter_cons_of_pos _ p a as hpa, @List.filter_cons_of_neg _ (fun x => !(p x)) a as hna]
      simp only [List.length_cons]
      omega
    | false =>
      have hpp : (fun x => !(p x)) a = true := by simp [hpa]
      rw [@List.filter_cons_of_neg _ p a as (by simp [hpa]),
        @List.filter_cons_of_pos _ (fun x => !(p x)) a as hpp]
      simp only [List.length_cons]
      omega

theorem length_filter_or_disjoint {α : Type} (l : List α) (p q : α → Bool)
    (h : ∀ a ∈ l, ¬(p a = true ∧ q a = true)) :
    (l.filter (fun a => p a || q a)).length = (l.filter p).length + (l.filter q).length := by
  induction l with
  | nil => rfl
  | cons a as ihl =>
    have hrest := ihl (fun a ha => h a (List.mem_cons_of_mem _ ha))
    have hh := h a (List.mem_cons_self a as)
    cases hpa : p a with
    | true =>
      have hqa : q a = false := by
        cases hqa : q a with
        | false => rfl
        | true => exact absurd ⟨hpa, hqa⟩ hh
      have hor : (fun x => p x || q x) a = true := by simp [hpa]
      rw [@List.filter_cons_of_pos _ (fun x => p x || q x) a as hor,
        @List.filter_cons_of_pos _ p a as hpa,
        @List.filter_cons_of_neg _ q a as (by simp [hqa])]
      simp only [List.length_cons]
      omega
    | false =>
      cases hqa : q a with
      | true =>
        have hor : (fun x => p x || q x) a = true := by simp [hpa, hqa]
        rw [@List.filter_cons_of_pos _ (fun x => p x || q x) a as hor,
          @List.filter_cons_of_neg _ p a as (by simp [hpa]),
          @List.filter_cons_of_pos _ q a as hqa]
        simp only [List.length_cons]
        omega
      | false =>
        have hor : ¬((fun x => p x || q x) a = true) := by simp [hpa, hqa]
        rw [@List.filter_cons_of_neg _ (fun x => p x || q x) a as hor,
          @List.filter_cons_of_neg _ p a as (by simp [hpa]),
          @List.filter_cons_of_neg _ q a as (by simp [hqa])]
        exact hrest

theorem length_filter_key {l : List Block} (hnd : (l.map Block.id).Nodup) {b0 : Block}
    (hb0 : b0 ∈ l) : (l.filter (fun x => x.id == b0.id)).length = 1 := by
  induction l with
  | nil => exact absurd hb0 (List.not_mem_nil _)
  | cons a as ihl =>
    rw [List.map_cons, List.nodup_cons] at hnd
    rcases List.mem_cons.mp hb0 with he | he
    · subst he
      rw [@List.filter_cons_of_pos _ (fun x => x.id == b0.id) b0 as (beq_self_eq_true b0.id)]
      have hnil : as.filter (fun x => x.id == b0.id) = [] := by
        rw [List.filter_eq_nil_iff]
        intro x hx
        simp only [Bool.not_eq_true]
        cases hxx : (x.id == b0.id) with
        | false => rfl
        | true =>
          exact absurd (List.mem_map.mpr ⟨x, hx, beq_id_eq hxx⟩) hnd.1
      rw [hnil]
      rfl
    · have hne : (a.id == b0.id) = false := by
        cases hx : (a.id == b0.id) with
        | false => rfl
        | true =>
          exact absurd (List.mem_map.mpr ⟨b0, he, (beq_id_eq hx).symm⟩) hnd.1
      rw [@List.filter_cons_of_neg _ (fun x => x.id == b0.id) a as (by simp [hne])]
      exact ihl hnd.2 he

/-- Correctness of the fuelled recursive delete, by induction on the
fuel: with pairwise distinct ids, rank-respecting parent links, and fuel
at least the length of every parent chain ending at `id`, the result
keeps exactly the blocks that are neither the target nor chain to it, and
it is a filtered sublist of the input. -/
theorem deleteBlockFuel_spec (r : String → Nat) :
    ∀ (fuel : Nat) (s : List Block) (id : String),
    (s.map Block.id).Nodup →
    (∀ b ∈ s, rankOkB r b = true) →
    (∀ x l, ChainL s id x l → l.length ≤ fuel) →
    (∀ b, b ∈ DM.deleteBlockFuel (fuel + 1) s id ↔
        b ∈ s ∧ b.id ≠ id ∧ ¬ ChainsTo s id b.id)
    ∧ ∃ p : Block → Bool, DM.deleteBlockFuel (fuel + 1) s id = s.filter p := by
  intro fuel
  induction fuel with
  | zero =>
    intro s id hnd hr hbound
    have hnochain : ∀ x, ¬ ChainsTo s id x := by
      rintro x ⟨l, hl⟩
      have hlen := hbound x l hl
      have hne := chainL_ne_nil hl
      cases l with
      | nil => exact hne rfl
      | cons a as => simp at hlen
    have hfold : ∀ (cs : List Block) (s0 : List Block),
        cs.foldl (fun acc c => DM.deleteBlockFuel 0 acc c.id) s0 = s0 := by
      intro cs
      induction cs with
      | nil => intro s0; rfl
      | cons c cs ihc => intro s0; exact ihc s0
    have hrun : DM.deleteBlockFuel 1 s id
        = ((s.filter (fun b => b.parentId == some id)).foldl
            (fun acc c => DM.deleteBlockFuel 0 acc c.id) s).filter
            (fun b => !(b.id == id)) := rfl
    constructor
    · intro b
      rw [hrun, hfold, List.mem_filter]
      constructor
      · rintro ⟨hb, hpred⟩
        refine ⟨hb, ?_, hnochain b.id⟩
        intro he
        rw [he] at hpred
        simp at hpred
      · rintro ⟨hb, hne2, -⟩
        exact ⟨hb, by simp [hne2]⟩
    · refine ⟨fun b => !(b.id == id), ?_⟩
      rw [hrun, hfold]
  | succ fuel ih =>
    intro s id hnd hr hbound
    have hchildsub : ∀ c ∈ s.filter (fun b => b.parentId == some id),
        c ∈ s ∧ c.parentId = some id := by
      intro c hc
      have hmf := List.mem_filter.mp hc
      exact ⟨hmf.1, by simpa using hmf.2⟩
    have FOLD : ∀ (cs : List Block), (∀ c ∈ cs, c ∈ s ∧ c.parentId = some id) →
        ∀ (s0 : List Block) (Dead : Block → Prop),
        (∀ b, b ∈ s0 ↔ b ∈ s ∧ ¬ Dead b) →
        (∀ b2 b, b2 ∈ s → b ∈ s → Dead b2 → ChainsTo s b2.id b.id → Dead b) →
        (∃ p : Block → Bool, s0 = s.filter p) →
        (∀ b, b ∈ cs.foldl (fun acc c => DM.deleteBlockFuel (fuel + 1) acc c.id) s0 ↔
            b ∈ s ∧ ¬ (Dead b ∨ ∃ c ∈ cs, b.id = c.id ∨ ChainsTo s c.id b.id))
        ∧ ∃ p : Block → Bool,
            cs.foldl (fun acc c => DM.deleteBlockFuel (fuel + 1) acc c.id) s0 = s.filter p := by
      intro cs
      induction cs with
      | nil =>
        intro hcs s0 Dead hchar hclosed hfil
        constructor
        · intro b
          rw [List.foldl_nil, hchar b]
          simp
        · simpa using hfil
      | cons c cs ihc =>
        intro hcs s0 Dead hchar hclosed hfil
        obtain ⟨hcmem, hcpar⟩ := hcs c (List.mem_cons_self c cs)
        obtain ⟨p0, hp0⟩ := hfil
        have hs0sub : ∀ b ∈ s0, b ∈ s := fun b hb => ((hchar b).mp hb).1
        have hs0nd : (s0.map Block.id).Nodup := by
          rw [hp0]
          exact hnd.sublist ((List.filter_sublist s).map Block.id)
        have hs0r : ∀ b ∈ s0, rankOkB r b = true := fun b hb => hr b (hs0sub b hb)
        have hs0bound : ∀ x l, ChainL s0 c.id x l → l.length ≤ fuel := by
          intro x l hl
          have hl2 := chainL_mono hs0sub hl
          have hb2 := hbound x (l ++ [c]) (chainL_append_child hl2 hcmem hcpar)
          rw [List.length_append] at hb2
          simp only [List.length_singleton] at hb2
          omega
        obtain ⟨CH1, FIL1⟩ := ih s0 c.id hs0nd hs0r hs0bound
        have survive : ∀ {x l2}, ChainL s c.id x l2 →
            (∀ bx ∈ s, bx.id = x → ¬ Dead bx) →
            ChainL s0 c.id x l2 := by
          intro x l2 hch
          induction hch with
          | base hb hp =>
            intro halive
            exact ChainL.base ((hchar _).mpr ⟨hb, halive _ hb rfl⟩) hp
          | step hb hp hch2 ih2 =>
            intro halive
            have hbal := halive _ hb rfl
            refine ChainL.step ((hchar _).mpr ⟨hb, hbal⟩) hp (ih2 ?_)
            intro bm hbm hbmid hdead
            exact hbal (hclosed bm _ hbm hb hdead
              ⟨[_], ChainL.base hb (by rw [hbmid]; exact hp)⟩)
        have KEY : ∀ b, b ∈ DM.deleteBlockFuel (fuel + 1) s0 c.id ↔
            b ∈ s ∧ ¬ (Dead b ∨ (b.id = c.id ∨ ChainsTo s c.id b.id)) := by
          intro b
          rw [CH1 b]
          constructor
          · rintro ⟨hb0, hbne, hbnc⟩
            obtain ⟨hbs, hbnd⟩ := (hchar b).mp hb0
            refine ⟨hbs, ?_⟩
            rintro (hd | hd | hd)
            · exact hbnd hd
            · exact hbne hd
            · obtain ⟨l2, hl2⟩ := hd
              refine hbnc ⟨l2, survive hl2 ?_⟩
              intro bx hbx hbxid
              rw [id_uniq hnd hbx hbs hbxid]
              exact hbnd
          · rintro ⟨hbs, hnd3⟩
            push_neg at hnd3
            obtain ⟨h1, h2, h3⟩ := hnd3
            exact ⟨(hchar b).mpr ⟨hbs, h1⟩, h2,
              fun hc2 => h3 (chainsTo_mono hs0sub hc2)⟩
        have closed2 : ∀ b2 b, b2 ∈ s → b ∈ s →
            (Dead b2 ∨ (b2.id = c.id ∨ ChainsTo s c.id b2.id)) →
            ChainsTo s b2.id b.id →
            (Dead b ∨ (b.id = c.id ∨ ChainsTo s c.id b.id)) := by
          rintro b2 b hb2 hb (hd | hd | hd) hch
          · exact Or.inl (hclosed b2 b hb2 hb hd hch)
          · exact Or.inr (Or.inr (hd ▸ hch))
          · exact Or.inr (Or.inr (chainsTo_compose hch hd))
        have hfil1 : ∃ p : Block → Bool,
            DM.deleteBlockFuel (fuel + 1) s0 c.id = s.filter p := by
          obtain ⟨p1, hp1⟩ := FIL1
          exact ⟨fun a => p1 a && p0 a, by rw [hp1, hp0, List.filter_filter]⟩
        obtain ⟨CH2, FIL2⟩ := ihc (fun c2 hc2 => hcs c2 (List.mem_cons_of_mem c hc2))
          (DM.deleteBlockFuel (fuel + 1) s0 c.id)
          (fun b => Dead b ∨ (b.id = c.id ∨ ChainsTo s c.id b.id))
          KEY closed2 hfil1
        constructor
        · intro b
          rw [List.foldl_cons, CH2 b]
          constructor
          · rintro ⟨hbs, hnd4⟩
            refine ⟨hbs, ?_⟩
            rintro (hd | hd)
            · exact hnd4 (Or.inl (Or.inl hd))
            · obtain ⟨c2, hc2, hd2⟩ := hd
              rcases List.mem_cons.mp hc2 with he | he
              · subst he
                exact hnd4 (Or.inl (Or.inr hd2))
              · exact hnd4 (Or.inr ⟨c2, he, hd2⟩)
          · rintro ⟨hbs, hnd4⟩
            refine ⟨hbs, ?_⟩
            rintro ((hd | hd) | hd)
            · exact hnd4 (Or.inl hd)
            · exact hnd4 (Or.inr ⟨c, List.mem_cons_self c cs, hd⟩)
            · obtain ⟨c2, hc2, hd2⟩ := hd
              exact hnd4 (Or.inr ⟨c2, List.mem_cons_of_mem c hc2, hd2⟩)
        · rw [List.foldl_cons]
          exact FIL2
    have hchains_iff : ∀ x : String, ChainsTo s id x ↔
        ∃ c ∈ s.filter (fun b => b.parentId == some id),
          (x = c.id ∨ ChainsTo s c.id x) := by
      intro x
      constructor
      · rintro ⟨l, hl⟩
        have hlast : ∃ cb ∈ s, cb.parentId = some id ∧ (x = cb.id ∨ ChainsTo s cb.id x) := by
          induction hl with
          | base hb hp => exact ⟨_, hb, hp, Or.inl rfl⟩
          | step hb hp hch2 ih2 =>
            obtain ⟨cb, hcb, hcbp, hcase⟩ := ih2
            rcases hcase with he | he
            · refine ⟨cb, hcb, hcbp, Or.inr ⟨[_], ChainL.base hb ?_⟩⟩
              rw [← he]
              exact hp
            · obtain ⟨l2, hl2⟩ := he
              exact ⟨cb, hcb, hcbp, Or.inr ⟨_ :: l2, ChainL.step hb hp hl2⟩⟩
        obtain ⟨cb, hcb, hcbp, hcase⟩ := hlast
        exact ⟨cb, List.mem_filter.mpr ⟨hcb, by simp [hcbp]⟩, hcase⟩
      · rintro ⟨c, hc, hcase⟩
        obtain ⟨hcm, hcp⟩ := hchildsub c hc
        rcases hcase with he | he
        · exact ⟨[c], he ▸ ChainL.base hcm hcp⟩
        · exact chainsTo_compose he ⟨[c], ChainL.base hcm hcp⟩
    obtain ⟨CHF, FILF⟩ := FOLD (s.filter (fun b => b.parentId == some id))
      (fun c hc => hchildsub c hc) s (fun _ => False)
      (by intro b; simp)
      (by intro b2 b hb2 hb hf hch; exact hf.elim)
      ⟨fun _ => true, by simp⟩
    have hrun : DM.deleteBlockFuel (fuel + 1 + 1) s id
        = ((s.filter (fun b => b.parentId == some id)).foldl
            (fun acc c => DM.deleteBlockFuel (fuel + 1) acc c.id) s).filter
            (fun b => !(b.id == id)) := rfl
    constructor
    · intro b
      rw [hrun, List.mem_filter, CHF b]
      constructor
      · rintro ⟨⟨hbs, hnd5⟩, hpred⟩
        refine ⟨hbs, by simpa using hpred, ?_⟩
        intro hch
        obtain ⟨c, hc, hcase⟩ := (hchains_iff b.id).mp hch
        exact hnd5 (Or.inr ⟨c, hc, hcase⟩)
      · rintro ⟨hbs, hne2, hnch⟩
        refine ⟨⟨hbs, ?_⟩, by simp [hne2]⟩
        rintro (hf | ⟨c, hc, hcase⟩)
        · exact hf
        · exact hnch ((hchains_iff b.id).mpr ⟨c, hc, hcase⟩)
    · obtain ⟨pf, hpf⟩ := FILF
      refine ⟨fun a => !(a.id == id) && pf a, ?_⟩
      rw [hrun, hpf, List.filter_filter]

/-- C2: for a stored block with `N` transitive descendants (`N` counted
by the decidable chain walk `chainsToB`), `deleteBlock` removes exactly
those `N + 1` records from storage — the records remaining are exactly
the blocks that are neither the target nor chain to it (the definition
deletes the descendants first, the target record last) — and afterwards
no stored block's `parentId` chain leads to the deleted block.
Hypotheses: ids are pairwise distinct (the keyed store) and parent links
respect a rank (the acyclic forest on which the JS recursion
terminates). -/
theorem C2_deleteBlock_removes_subtree (store : List Block) (id : String)
    (r : String → Nat)
    (hnd : (store.map Block.id).Nodup)
    (hr : store.all (rankOkB r) = true)
    (hid : store.any (fun b => b.id == id) = true) :
    (∀ b, b ∈ DM.deleteBlock store id ↔
        b ∈ store ∧ b.id ≠ id ∧ ¬ ChainsTo store id b.id)
    ∧ store.length = (DM.deleteBlock store id).length
        + (store.filter (fun b => chainsToB store.length store b.id id)).length + 1
    ∧ (∀ b ∈ DM.deleteBlock store id, ¬ ChainsTo (DM.deleteBlock store id) id b.id) := by
  have hrall : ∀ b ∈ store, rankOkB r b = true := fun b hb => List.all_eq_true.mp hr b hb
  have hbound : ∀ x l, ChainL store id x l → l.length ≤ store.length :=
    fun x l hl => chainL_length_le r hrall hl
  obtain ⟨CH, p, hp⟩ := deleteBlockFuel_spec r store.length store id hnd hrall hbound
  have hdel : DM.deleteBlock store id = DM.deleteBlockFuel (store.length + 1) store id := rfl
  have CH2 : ∀ b, b ∈ DM.deleteBlock store id ↔
      b ∈ store ∧ b.id ≠ id ∧ ¬ ChainsTo store id b.id := by
    intro b
    rw [hdel]
    exact CH b
  refine ⟨CH2, ?_, ?_⟩
  · have hqdef : ∀ b ∈ store, p b
        = (!(b.id == id) && !(chainsToB store.length store b.id id)) := by
      intro b hb
      apply bool_eq_of_true_iff
      have hmem := CH2 b
      rw [hdel, hp, List.mem_filter] at hmem
      have h1 : p b = true ↔ (b.id ≠ id ∧ ¬ ChainsTo store id b.id) := by
        constructor
        · intro hpb
          have hres := hmem.mp ⟨hb, hpb⟩
          exact ⟨hres.2.1, hres.2.2⟩
        · intro hcond
          exact (hmem.mpr ⟨hb, hcond.1, hcond.2⟩).2
      have h2 : ((!(b.id == id)) && !(chainsToB store.length store b.id id)) = true
          ↔ (b.id ≠ id ∧ ¬ ChainsTo store id b.id) := by
        rw [Bool.and_eq_true, Bool.not_eq_true', Bool.not_eq_true']
        constructor
        · rintro ⟨ha, hcb⟩
          refine ⟨by simpa using ha, fun hch => ?_⟩
          rw [(chainsToB_correct r hnd hrall).mpr hch] at hcb
          exact Bool.noConfusion hcb
        · rintro ⟨ha, hcb⟩
          refine ⟨by simpa using ha, ?_⟩
          cases hx : chainsToB store.length store b.id id with
          | false => rfl
          | true => exact absurd ((chainsToB_correct r hnd hrall).mp hx) hcb
      exact h1.trans h2.symm
    have hfinal : DM.deleteBlock store id = store.filter
        (fun b => !(b.id == id) && !(chainsToB store.length store b.id id)) := by
      rw [hdel, hp]
      exact List.filter_congr hqdef
    have hsplit := length_filter_split store
      (fun b => !(b.id == id) && !(chainsToB store.length store b.id id))
    have hnegcong : store.filter (fun b =>
          !(!(b.id == id) && !(chainsToB store.length store b.id id)))
        = store.filter (fun b => (b.id == id) || chainsToB store.length store b.id id) := by
      apply List.filter_congr
      intro a ha
      cases h1 : (a.id == id) with
      | true => simp [h1]
      | false =>
        cases h2 : chainsToB store.length store a.id id with
        | true => simp [h1, h2]
        | false => simp [h1, h2]
    have hdisj : ∀ a ∈ store, ¬((fun b => b.id == id) a = true
        ∧ (fun b => chainsToB store.length store b.id id) a = true) := by
      rintro a ha ⟨h1a, h2a⟩
      have haid : a.id = id := beq_id_eq h1a
      have hch := (chainsToB_correct r hnd hrall).mp h2a
      rw [haid] at hch
      exact no_self_chain r hrall hch
    have hor := length_filter_or_disjoint store (fun b => b.id == id)
      (fun b => chainsToB store.length store b.id id) hdisj
    obtain ⟨b0, hb0mem, hb0pred⟩ := List.any_eq_true.mp hid
    have hb0id : b0.id = id := beq_id_eq hb0pred
    have hone : (store.filter (fun x => x.id == id)).length = 1 := by
      have hk := length_filter_key hnd hb0mem
      rw [hb0id] at hk
      exact hk
    rw [hfinal]
    rw [hnegcong] at hsplit
    rw [hor, hone] at hsplit
    omega
  · intro b hb hch
    have hsub : ∀ x ∈ DM.deleteBlock store id, x ∈ store :=
      fun x hx => ((CH2 x).mp hx).1
    exact ((CH2 b).mp hb).2.2 (chainsTo_mono hsub hch)

/-- Witness for C2: the three-block chain `a ← b ← c` (ranks 0, 1, 2);
deleting `a` removes all three records: `3 = 0 + 2 + 1`. -/
theorem C2_deleteBlock_removes_subtree_witness :
    ((([⟨"a", "p1", none, "toggle", "", [], 0, "t0", "t0"⟩,
        ⟨"b", "p1", some "a", "paragraph", "", [], 1, "t0", "t0"⟩,
        ⟨"c", "p1", some "b", "paragraph", "", [], 2, "t0", "t0"⟩] :
        List Block).map Block.id).Nodup
      ∧ ([⟨"a", "p1", none, "toggle", "", [], 0, "t0", "t0"⟩,
          ⟨"b", "p1", some "a", "paragraph", "", [], 1, "t0", "t0"⟩,
          ⟨"c", "p1", some "b", "paragraph", "", [], 2, "t0", "t0"⟩] :
          List Block).all
          (rankOkB (fun x => if x = "b" then 1 else if x = "c" then 2 else 0)) = true
      ∧ ([⟨"a", "p1", none, "toggle", "", [], 0, "t0", "t0"⟩,
          ⟨"b", "p1", some "a", "paragraph", "", [], 1, "t0", "t0"⟩,
          ⟨"c", "p1", some "b", "paragraph", "", [], 2, "t0", "t0"⟩] :
          List Block).any (fun b => b.id == "a") = true)
    ∧ ([⟨"a", "p1", none, "toggle", "", [], 0, "t0", "t0"⟩,
        ⟨"b", "p1", some "a", "paragraph", "", [], 1, "t0", "t0"⟩,
        ⟨"c", "p1", some "b", "paragraph", "", [], 2, "t0", "t0"⟩] :
        List Block).length
      = (DM.deleteBlock
          [⟨"a", "p1", none, "toggle", "", [], 0, "t0", "t0"⟩,
           ⟨"b", "p1", some "a", "paragraph", "", [], 1, "t0", "t0"⟩,
           ⟨"c", "p1", some "b", "paragraph", "", [], 2, "t0", "t0"⟩] "a").length
        + (([⟨"a", "p1", none, "toggle", "", [], 0, "t0", "t0"⟩,
             ⟨"b", "p1", some "a", "paragraph", "", [], 1, "t0", "t0"⟩,
             ⟨"c", "p1", some "b", "paragraph", "", [], 2, "t0", "t0"⟩] :
             List Block).filter
            (fun b => chainsToB 3
              [⟨"a", "p1", none, "toggle", "", [], 0, "t0", "t0"⟩,
               ⟨"b", "p1", some "a", "paragraph", "", [], 1, "t0", "t0"⟩,
               ⟨"c", "p1", some "b", "paragraph", "", [], 2, "t0", "t0"⟩] b.id "a")).length
        + 1 := by
  refine ⟨⟨by decide, by decide, by decide⟩, ?_⟩
  exact (C2_deleteBlock_removes_subtree
    [⟨"a", "p1", none, "toggle", "", [], 0, "t0", "t0"⟩,
     ⟨"b", "p1", some "a", "paragraph", "", [], 1, "t0", "t0"⟩,
     ⟨"c", "p1", some "b", "paragraph", "", [], 2, "t0", "t0"⟩] "a"
    (fun x => if x = "b" then 1 else if x = "c" then 2 else 0)
    (by decide) (by decide) (by decide)).2.1

end Planner
